import Mathlib

/-!
Shallow embedding of the `itis::HashTable` separate-chaining hash table
(`src/include/hash_table.hpp`, `src/unnamed/part_000`) together with proofs
about the claims of its specification.

Modelling conventions:
* C++ `int` is modelled as `Int` (the claims under study do not involve
  machine-integer overflow), `std::string` as `String`, `double` load factors
  as `ℚ` (all numeric comparisons appearing in the claims involve only ratios
  `count / capacity` against small decimal constants, where rational and
  `double` comparison agree).
* `std::vector<Bucket>` is a `List Bucket`; `std::list<std::pair<int,string>>`
  is a `List (Int × String)`.
* C++ `%` on `int` is truncated division remainder, i.e. `Int.tmod`.
* Indexing `buckets_[index]` with `index` outside `[0, buckets_.size())` is
  undefined behaviour in the source; every operation therefore returns
  `Except Unit _`, where `.error ()` marks exactly the out-of-range bucket
  access.  Constructor failure (`throw std::logic_error`) is modelled by
  `Except ConstructionError`.
-/

set_option linter.unusedVariables false

namespace itis

/-- `itis::utils::hash(key, table_size) = key % table_size` with C++ truncated
remainder semantics (`hash_table.hpp` lines 13-15). -/
def utilsHash (key : Int) (table_size : Int) : Int :=
  Int.tmod key table_size

/-- A bucket: `std::list<std::pair<int, std::string>>`. -/
abbrev Bucket := List (Int × String)

/-- The hash table state: `num_keys_`, `load_factor_`, `buckets_`
(`hash_table.hpp` lines 29-32). -/
structure HashTable where
  num_keys : Int
  load_factor : ℚ
  buckets : List Bucket
deriving DecidableEq

instance instDecEqExcept {e a : Type} [DecidableEq e] [DecidableEq a] :
    DecidableEq (Except e a) := fun x y =>
  match x, y with
  | .ok u, .ok v =>
    if h : u = v then .isTrue (congrArg Except.ok h)
    else .isFalse (fun hh => h (Except.ok.inj hh))
  | .error u, .error v =>
    if h : u = v then .isTrue (congrArg Except.error h)
    else .isFalse (fun hh => h (Except.error.inj hh))
  | .ok u, .error v => .isFalse (fun hh => Except.noConfusion hh)
  | .error u, .ok v => .isFalse (fun hh => Except.noConfusion hh)

/-- `HashTable::kGrowthCoefficient = 2`. -/
def kGrowthCoefficient : Nat := 2

/-- `HashTable::kDefaultLoadFactor = 0.75`. -/
def kDefaultLoadFactor : ℚ := 3 / 4

/-- Member `HashTable::hash`: `utils::hash(key, buckets_.size())`
(`part_000` lines 7-9). -/
def HashTable.hash (t : HashTable) (key : Int) : Int :=
  utilsHash key (t.buckets.length : Int)

/-- The two `std::logic_error`s thrown by the constructor. -/
inductive ConstructionError where
  | invalidCapacity
  | invalidLoadFactor
deriving DecidableEq

/-- The constructor `HashTable::HashTable(capacity, load_factor)`
(`part_000` lines 11-20): validates `capacity > 0` and
`0 < load_factor ≤ 1`, then allocates `capacity` empty buckets. -/
def HashTable.New (capacity : Int) (load_factor : ℚ) : Except ConstructionError HashTable :=
  if capacity ≤ 0 then
    .error .invalidCapacity
  else if load_factor ≤ 0 ∨ 1 < load_factor then
    .error .invalidLoadFactor
  else
    .ok { num_keys := 0, load_factor := load_factor,
          buckets := List.replicate capacity.toNat [] }

/-- The linear scan of one bucket performed by `Search`
(`part_000` lines 24-28): first pair whose key matches. -/
def bucketFind (b : Bucket) (key : Int) : Option String :=
  match b with
  | [] => none
  | p :: rest => if p.1 = key then some p.2 else bucketFind rest key

/-- `HashTable::Search` (`part_000` lines 22-30): scan the bucket at
`hash(key)`.  Accessing `buckets_[index]` out of range is the error branch. -/
def HashTable.Search (t : HashTable) (key : Int) : Except Unit (Option String) :=
  let index := t.hash key
  if h : 0 ≤ index ∧ index.toNat < t.buckets.length then
    .ok (bucketFind (t.buckets.get ⟨index.toNat, h.2⟩) key)
  else
    .error ()

/-- `HashTable::ContainsKey` (`part_000` lines 78-81):
`return Search(key).has_value();`. -/
def HashTable.ContainsKey (t : HashTable) (key : Int) : Except Unit Bool :=
  (t.Search key).map Option.isSome

/-- The overwrite loop of `Put` (`part_000` lines 35-39): every pair whose key
matches gets its value overwritten (the loop has no break). -/
def bucketReplace (b : Bucket) (key : Int) (value : String) : Bucket :=
  b.map (fun p => if p.1 = key then (p.1, value) else p)

/-- `newBuckets[i].push_back(p)`: append `p` at the end of bucket `i`. -/
def appendAt (bs : List Bucket) (i : Nat) (p : Int × String) : List Bucket :=
  match bs, i with
  | [], _ => []
  | b :: rest, 0 => (b ++ [p]) :: rest
  | b :: rest, n + 1 => b :: appendAt rest n p

/-- The rehash loop of `Put` (`part_000` lines 50-55): every stored pair is
re-inserted into `newBuckets` at `utils::hash(pair.first, newBuckets.size())`;
a negative index is again the out-of-range error branch (`none`). -/
def rehashAll (acc : List Bucket) : List (Int × String) → Option (List Bucket)
  | [] => some acc
  | p :: rest =>
    let newHash := utilsHash p.1 (acc.length : Int)
    if h : 0 ≤ newHash ∧ newHash.toNat < acc.length then
      rehashAll (appendAt acc newHash.toNat p) rest
    else
      none

/-- The trailing block of `Put` (`part_000` lines 48-57): the check
`static_cast<double>(num_keys_) / buckets_.size() >= load_factor_` followed,
when it holds, by the reallocation into `capacity() * kGrowthCoefficient`
buckets, traversing the stored pairs in bucket-then-insertion order
(`buckets_.flatten`).  This check runs after *both* branches of `Put`. -/
def resizeStep (t1 : HashTable) : Except Unit HashTable :=
  if (t1.num_keys : ℚ) / (t1.buckets.length : ℚ) ≥ t1.load_factor then
    match rehashAll (List.replicate (t1.buckets.length * kGrowthCoefficient) [])
        t1.buckets.flatten with
    | some nb => .ok { t1 with buckets := nb }
    | none => .error ()
  else
    .ok t1

/-- `HashTable::Put` (`part_000` lines 32-58).  The bucket scan of
`ContainsKey(key)` inspects the same bucket `buckets_[index]`, so it is
rendered as `(bucketFind b key).isSome`; the overwrite loop touches every
matching pair (`bucketReplace`), the insert branch appends and increments
`num_keys_`, and either way the trailing `resizeStep` runs. -/
def HashTable.Put (t : HashTable) (key : Int) (value : String) : Except Unit HashTable :=
  let index := t.hash key
  if h : 0 ≤ index ∧ index.toNat < t.buckets.length then
    let b := t.buckets.get ⟨index.toNat, h.2⟩
    if (bucketFind b key).isSome then
      resizeStep { t with buckets := t.buckets.set index.toNat (bucketReplace b key value) }
    else
      resizeStep { t with buckets := t.buckets.set index.toNat (b ++ [(key, value)]),
                          num_keys := t.num_keys + 1 }
  else
    .error ()

/-- The erase loop of `Remove` (`part_000` lines 64-71): remove the first pair
whose key matches, returning its value and the remaining bucket. -/
def bucketRemoveFirst (b : Bucket) (key : Int) : Option String × Bucket :=
  match b with
  | [] => (none, [])
  | p :: rest =>
    if p.1 = key then (some p.2, rest)
    else
      let res := bucketRemoveFirst rest key
      (res.1, p :: res.2)

/-- `HashTable::Remove` (`part_000` lines 60-76): if `ContainsKey(key)` (a scan
of the same bucket), erase the first matching pair and decrement `num_keys_`;
otherwise return `nullopt` with the table unchanged. -/
def HashTable.Remove (t : HashTable) (key : Int) : Except Unit (Option String × HashTable) :=
  let index := t.hash key
  if h : 0 ≤ index ∧ index.toNat < t.buckets.length then
    let b := t.buckets.get ⟨index.toNat, h.2⟩
    if (bucketFind b key).isSome then
      match bucketRemoveFirst b key with
      | (some v, b2) =>
        .ok (some v, { t with buckets := t.buckets.set index.toNat b2,
                              num_keys := t.num_keys - 1 })
      | (none, _) => .ok (none, t)
    else
      .ok (none, t)
  else
    .error ()

/-- `HashTable::size` (`part_000` lines 87-89). -/
def HashTable.size (t : HashTable) : Int :=
  t.num_keys

/-- `HashTable::empty` (`part_000` lines 83-85). -/
def HashTable.isEmpty (t : HashTable) : Bool :=
  t.size == 0

/-- `HashTable::capacity` (`part_000` lines 91-93). -/
def HashTable.capacity (t : HashTable) : Int :=
  (t.buckets.length : Int)

/-- `HashTable::keys` (`part_000` lines 99-107): the set of stored keys. -/
def HashTable.keys (t : HashTable) : Finset Int :=
  (t.buckets.flatten.map Prod.fst).toFinset

/-- `HashTable::values` (`part_000` lines 109-117): all values in
bucket-then-insertion order. -/
def HashTable.values (t : HashTable) : List String :=
  (t.buckets.map (List.map Prod.snd)).flatten

/-! ### Specification-side definitions (derived, not from the source) -/

/-- Run a sequence of `Put` calls, propagating the error branch. -/
def runPuts (t : HashTable) : List (Int × String) → Except Unit HashTable
  | [] => .ok t
  | (k, v) :: rest =>
    match t.Put k v with
    | .ok t2 => runPuts t2 rest
    | .error e => .error e

/-- Reachability by successfully completed post-construction operations:
`Steps t u` holds when `u` results from `t` by a sequence of `Put` and
`Remove` calls that avoid the error branch. -/
inductive Steps : HashTable → HashTable → Prop where
  | refl (t : HashTable) : Steps t t
  | put (t t' t'' : HashTable) (k : Int) (v : String) :
      Steps t t' → t'.Put k v = .ok t'' → Steps t t''
  | rem (t t' t'' : HashTable) (k : Int) (r : Option String) :
      Steps t t' → t'.Remove k = .ok (r, t'') → Steps t t''

/-- Guarded bucket lookup: the value `Search` would return for bucket index
`j`, with `none` in place of the error branch. -/
def lookupIdx (bs : List Bucket) (j : Int) (k : Int) : Option String :=
  if 0 ≤ j ∧ j.toNat < bs.length then bucketFind (bs.getD j.toNat []) k
  else none

/-- Total lookup function of a table: the stored value of `k`, if any. -/
def HashTable.findE (t : HashTable) (k : Int) : Option String :=
  lookupIdx t.buckets (t.hash k) k

/-- Left-biased choice on options (`Option.orElse` without the thunk). -/
def optOr (a b : Option String) : Option String :=
  match a with
  | some v => some v
  | none => b

/-- Buckets `bs` of a table of size `cap` are correctly placed when every pair
in the bucket at position `i` hashes to `off + i` (the offset generalisation
makes the induction over the bucket list go through). -/
def placedFrom (cap : Int) (off : Int) (bs : List Bucket) : Prop :=
  ∀ i, i < bs.length → ∀ p ∈ bs.getD i [], Int.tmod p.1 cap = off + (i : Int)

/-- Structural well-formedness of a table: positive capacity, every pair
placed in the bucket its key hashes to, no duplicate keys inside a bucket, and
`num_keys_` equal to the total number of stored pairs. -/
def WF (t : HashTable) : Prop :=
  0 < t.buckets.length ∧
  placedFrom (t.buckets.length : Int) 0 t.buckets ∧
  (∀ i, i < t.buckets.length → ((t.buckets.getD i []).map Prod.fst).Nodup) ∧
  t.num_keys = ((t.buckets.map List.length).sum : Int)

/-- All stored keys are nonnegative. -/
def KeysNonneg (t : HashTable) : Prop :=
  ∀ b ∈ t.buckets, ∀ p ∈ b, 0 ≤ p.1

/-- The numeric invariant behind claim C3: a configuration whose
`capacity * loadFactor` is at least `1` keeps `count < capacity * loadFactor`
across operations. -/
def RatioInv (t : HashTable) : Prop :=
  0 < t.buckets.length ∧ 0 < t.load_factor ∧
  1 ≤ (t.buckets.length : ℚ) * t.load_factor ∧
  (t.num_keys : ℚ) < (t.buckets.length : ℚ) * t.load_factor

/-- Capacity bookkeeping relative to an initial bucket count `n0`: the
capacity only ever doubles, and while it still equals `n0` the stored count is
below `n0 * loadFactor`. -/
def GrowInv (n0 : Nat) (lf : ℚ) (t : HashTable) : Prop :=
  n0 ≤ t.buckets.length ∧ (∃ c : Nat, t.buckets.length = n0 * 2 ^ c) ∧
  (t.buckets.length = n0 → (t.num_keys : ℚ) < (n0 : ℚ) * lf) ∧
  t.load_factor = lf

/-- `std::to_string` on an `int` key. -/
def str (k : Int) : String :=
  toString k

/-! ### Concrete tables used by the witnesses and counterexamples -/

/-- The table produced by `New(1, 1/2)`. -/
def tEmpty1 : HashTable :=
  { num_keys := 0, load_factor := 1/2, buckets := [[]] }

/-- The table produced by `New(1, 1/2)` followed by `Put(0, "a")`: the insert
triggered a resize (ratio `1/1 ≥ 1/2`), but the doubled table still has ratio
`1/2 ≥ 1/2`. -/
def tOver : HashTable :=
  { num_keys := 1, load_factor := 1/2, buckets := [[(0, "a")], []] }

/-- The table produced by `New(2, 3/4)` (load factor `kDefaultLoadFactor`). -/
def tEmpty2 : HashTable :=
  { num_keys := 0, load_factor := 3/4, buckets := [[], []] }

/-- `tEmpty2` after `Put(0, "a")`: ratio `1/2 < 3/4`. -/
def tHalfFull : HashTable :=
  { num_keys := 1, load_factor := 3/4, buckets := [[(0, "a")], []] }

/-- The table produced by `New(4, 1)`. -/
def tCap4 : HashTable :=
  { num_keys := 0, load_factor := 1, buckets := [[], [], [], []] }

/-- `tCap4` after `Put(k, str k)` for `k = 0, 1, 2`. -/
def tCap4Three : HashTable :=
  { num_keys := 3, load_factor := 1, buckets := [[(0, "0")], [(1, "1")], [(2, "2")], []] }

/-- `tCap4Three` after `Put(3, "3")`: the resize doubled the capacity to 8. -/
def tCap8Four : HashTable :=
  { num_keys := 4, load_factor := 1,
    buckets := [[(0, "0")], [(1, "1")], [(2, "2")], [(3, "3")], [], [], [], []] }

/-- The table produced by `New(3, 3/4)`. -/
def tCap3 : HashTable :=
  { num_keys := 0, load_factor := 3/4, buckets := [[], [], []] }

/-- `tCap3` after `Put(0, "0")` and `Put(1, "1")`: no resize. -/
def tCap3Two : HashTable :=
  { num_keys := 2, load_factor := 3/4, buckets := [[(0, "0")], [(1, "1")], []] }

/-- The table produced by `New(5, 3/4)`. -/
def tCap5 : HashTable :=
  { num_keys := 0, load_factor := 3/4, buckets := [[], [], [], [], []] }

/-! ### Lemmas: options, single buckets -/

lemma optOr_none_right (a : Option String) : optOr a none = a := by
  cases a <;> rfl

lemma optOr_assoc (a b c : Option String) :
    optOr (optOr a b) c = optOr a (optOr b c) := by
  cases a <;> rfl

lemma bucketFind_cons (p : Int × String) (rest : Bucket) (k : Int) :
    bucketFind (p :: rest) k = optOr (if p.1 = k then some p.2 else none) (bucketFind rest k) := by
  by_cases h : p.1 = k <;> simp [bucketFind, h, optOr]

lemma bucketFind_append (b1 b2 : Bucket) (k : Int) :
    bucketFind (b1 ++ b2) k = optOr (bucketFind b1 k) (bucketFind b2 k) := by
  induction b1 with
  | nil => simp [bucketFind, optOr]
  | cons p rest ih =>
    by_cases h : p.1 = k <;> simp [bucketFind, h, optOr, ih]

lemma bucketReplace_cons (p : Int × String) (rest : Bucket) (k : Int) (v : String) :
    bucketReplace (p :: rest) k v =
      (if p.1 = k then (p.1, v) else p) :: bucketReplace rest k v := rfl

lemma bucketRemoveFirst_cons (p : Int × String) (rest : Bucket) (k : Int) :
    bucketRemoveFirst (p :: rest) k =
      if p.1 = k then (some p.2, rest)
      else ((bucketRemoveFirst rest k).1, p :: (bucketRemoveFirst rest k).2) := rfl

lemma bucketFind_eq_none_iff (b : Bucket) (k : Int) :
    bucketFind b k = none ↔ k ∉ b.map Prod.fst := by
  induction b with
  | nil => simp [bucketFind]
  | cons p rest ih =>
    show (if p.1 = k then some p.2 else bucketFind rest k) = none ↔ _
    rw [List.map_cons]
    by_cases h : p.1 = k
    · rw [if_pos h]
      simp [h]
    · rw [if_neg h, ih]
      constructor
      · intro hn hmem
        rcases List.mem_cons.mp hmem with h1 | h2
        · exact h h1.symm
        · exact hn h2
      · intro hn hmem
        exact hn (List.mem_cons_of_mem _ hmem)

lemma bucketFind_of_forall_ne (b : Bucket) (k : Int) (h : ∀ p ∈ b, p.1 ≠ k) :
    bucketFind b k = none := by
  rw [bucketFind_eq_none_iff]
  intro hk
  obtain ⟨p, hp, hpk⟩ := List.mem_map.mp hk
  exact h p hp hpk

lemma mem_of_bucketFind (b : Bucket) (k : Int) (v : String)
    (h : bucketFind b k = some v) : (k, v) ∈ b := by
  induction b with
  | nil => simp [bucketFind] at h
  | cons p rest ih =>
    by_cases hk : p.1 = k
    · simp [bucketFind, hk] at h
      have hp : p = (k, v) := by
        obtain ⟨p1, p2⟩ := p
        simp at hk h
        rw [hk, h]
      rw [← hp]
      exact List.mem_cons_self p rest
    · simp [bucketFind, hk] at h
      exact List.mem_cons_of_mem p (ih h)

lemma bucketReplace_map_fst (b : Bucket) (k : Int) (v : String) :
    (bucketReplace b k v).map Prod.fst = b.map Prod.fst := by
  induction b with
  | nil => rfl
  | cons p rest ih =>
    by_cases h : p.1 = k <;> simp [bucketReplace, h] at ih ⊢ <;> exact ih

lemma bucketReplace_length (b : Bucket) (k : Int) (v : String) :
    (bucketReplace b k v).length = b.length :=
  List.length_map b _

lemma bucketFind_bucketReplace_self (b : Bucket) (k : Int) (v : String)
    (h : (bucketFind b k).isSome = true) :
    bucketFind (bucketReplace b k v) k = some v := by
  induction b with
  | nil => simp [bucketFind] at h
  | cons p rest ih =>
    by_cases hk : p.1 = k
    · simp [bucketReplace, bucketFind, hk]
    · simp [bucketFind, hk] at h
      simp [bucketReplace, bucketFind, hk]
      exact ih h

lemma bucketFind_bucketReplace_ne (b : Bucket) (k : Int) (v : String) (k' : Int)
    (h : k' ≠ k) :
    bucketFind (bucketReplace b k v) k' = bucketFind b k' := by
  induction b with
  | nil => rfl
  | cons p rest ih =>
    rw [bucketReplace_cons, bucketFind_cons, bucketFind_cons, ih]
    congr 1
    by_cases hk : p.1 = k
    · rw [if_pos hk]
      have hne : ¬ (p.1 = k') := by
        rw [hk]
        exact fun hh => h hh.symm
      show (if p.1 = k' then some v else none) = _
      rw [if_neg hne, if_neg hne]
    · rw [if_neg hk]

lemma mem_bucketReplace (b : Bucket) (k : Int) (v : String) (p : Int × String)
    (h : p ∈ bucketReplace b k v) : ∃ q ∈ b, p.1 = q.1 := by
  obtain ⟨q, hq, hqp⟩ := List.mem_map.mp h
  refine ⟨q, hq, ?_⟩
  by_cases hqk : q.1 = k <;> simp [hqk] at hqp <;> rw [← hqp]
  simp [hqk]

lemma bucketRemoveFirst_of_none (b : Bucket) (k : Int)
    (h : bucketFind b k = none) : bucketRemoveFirst b k = (none, b) := by
  induction b with
  | nil => rfl
  | cons p rest ih =>
    by_cases hk : p.1 = k
    · simp [bucketFind, hk] at h
    · simp only [bucketFind, hk, if_false, if_neg hk] at h
      rw [bucketRemoveFirst_cons, if_neg hk, ih h]

lemma bucketRemoveFirst_fst (b : Bucket) (k : Int) (v : String)
    (h : bucketFind b k = some v) : (bucketRemoveFirst b k).1 = some v := by
  induction b with
  | nil => simp [bucketFind] at h
  | cons p rest ih =>
    by_cases hk : p.1 = k
    · simp only [bucketFind, if_pos hk] at h
      rw [bucketRemoveFirst_cons, if_pos hk]
      exact congrArg some (Option.some.inj h)
    · simp only [bucketFind, if_neg hk] at h
      rw [bucketRemoveFirst_cons, if_neg hk]
      exact ih h

lemma bucketRemoveFirst_length (b : Bucket) (k : Int) (v : String)
    (h : bucketFind b k = some v) :
    (bucketRemoveFirst b k).2.length + 1 = b.length := by
  induction b with
  | nil => simp [bucketFind] at h
  | cons p rest ih =>
    by_cases hk : p.1 = k
    · rw [bucketRemoveFirst_cons, if_pos hk]
      rfl
    · simp only [bucketFind, if_neg hk] at h
      rw [bucketRemoveFirst_cons, if_neg hk]
      show (bucketRemoveFirst rest k).2.length + 1 + 1 = rest.length + 1
      rw [ih h]

lemma bucketRemoveFirst_sublist (b : Bucket) (k : Int) :
    (bucketRemoveFirst b k).2.Sublist b := by
  induction b with
  | nil => exact List.Sublist.refl []
  | cons p rest ih =>
    rw [bucketRemoveFirst_cons]
    by_cases hk : p.1 = k
    · rw [if_pos hk]
      exact List.sublist_cons_self p rest
    · rw [if_neg hk]
      exact List.Sublist.cons₂ p ih

lemma mem_bucketRemoveFirst (b : Bucket) (k : Int) (p : Int × String)
    (h : p ∈ (bucketRemoveFirst b k).2) : p ∈ b :=
  (bucketRemoveFirst_sublist b k).mem h

lemma bucketFind_bucketRemoveFirst_ne (b : Bucket) (k k' : Int) (h : k' ≠ k) :
    bucketFind (bucketRemoveFirst b k).2 k' = bucketFind b k' := by
  induction b with
  | nil => rfl
  | cons p rest ih =>
    rw [bucketRemoveFirst_cons]
    by_cases hk : p.1 = k
    · have hne : ¬ (p.1 = k') := by
        rw [hk]
        exact fun hh => h hh.symm
      rw [if_pos hk]
      show bucketFind rest k' = bucketFind (p :: rest) k'
      rw [bucketFind_cons, if_neg hne]
      cases bucketFind rest k' <;> rfl
    · rw [if_neg hk]
      show bucketFind (p :: (bucketRemoveFirst rest k).2) k' = _
      rw [bucketFind_cons, bucketFind_cons, ih]

lemma bucketRemoveFirst_not_mem (b : Bucket) (k : Int)
    (hnd : (b.map Prod.fst).Nodup) (v : String) (h : bucketFind b k = some v) :
    k ∉ (bucketRemoveFirst b k).2.map Prod.fst := by
  induction b with
  | nil => simp [bucketFind] at h
  | cons p rest ih =>
    rw [List.map_cons] at hnd
    have hnd1 : p.1 ∉ rest.map Prod.fst := (List.nodup_cons.mp hnd).1
    have hnd2 : (rest.map Prod.fst).Nodup := (List.nodup_cons.mp hnd).2
    rw [bucketRemoveFirst_cons]
    by_cases hk : p.1 = k
    · rw [if_pos hk]
      intro hmem
      exact hnd1 (hk ▸ hmem)
    · simp only [bucketFind, if_neg hk] at h
      rw [if_neg hk, List.map_cons]
      intro hmem
      rcases List.mem_cons.mp hmem with h1 | h2
      · exact hk h1.symm
      · exact ih hnd2 h h2

/-! ### Lemmas: bucket arrays (getD, set, appendAt, lookupIdx) -/

lemma get_eq_getD (bs : List Bucket) (i : Nat) (h : i < bs.length) :
    bs.get ⟨i, h⟩ = bs.getD i [] := by
  induction bs generalizing i with
  | nil => cases h
  | cons b rest ih =>
    cases i with
    | zero => rfl
    | succ n => exact ih n (Nat.lt_of_succ_lt_succ h)

lemma getD_set_self (bs : List Bucket) (i : Nat) (b : Bucket) (h : i < bs.length) :
    (bs.set i b).getD i [] = b := by
  induction bs generalizing i with
  | nil => cases h
  | cons b0 rest ih =>
    cases i with
    | zero => rfl
    | succ n => exact ih n (Nat.lt_of_succ_lt_succ h)

lemma getD_set_ne (bs : List Bucket) (i j : Nat) (b : Bucket) (h : j ≠ i) :
    (bs.set i b).getD j [] = bs.getD j [] := by
  induction bs generalizing i j with
  | nil => rfl
  | cons b0 rest ih =>
    cases i with
    | zero =>
      cases j with
      | zero => exact absurd rfl h
      | succ m => rfl
    | succ n =>
      cases j with
      | zero => rfl
      | succ m => exact ih n m (fun hh => h (congrArg Nat.succ hh))

lemma getD_replicate_nil (n i : Nat) :
    (List.replicate n ([] : Bucket)).getD i [] = [] := by
  induction n generalizing i with
  | zero => cases i <;> rfl
  | succ m ih =>
    cases i with
    | zero => rfl
    | succ j => exact ih j

lemma appendAt_length (bs : List Bucket) (i : Nat) (p : Int × String) :
    (appendAt bs i p).length = bs.length := by
  induction bs generalizing i with
  | nil => rfl
  | cons b rest ih =>
    cases i with
    | zero => rfl
    | succ n =>
      show (appendAt rest n p).length + 1 = rest.length + 1
      rw [ih n]

lemma getD_appendAt_self (bs : List Bucket) (i : Nat) (p : Int × String)
    (h : i < bs.length) :
    (appendAt bs i p).getD i [] = bs.getD i [] ++ [p] := by
  induction bs generalizing i with
  | nil => cases h
  | cons b rest ih =>
    cases i with
    | zero => rfl
    | succ n => exact ih n (Nat.lt_of_succ_lt_succ h)

lemma getD_appendAt_ne (bs : List Bucket) (i j : Nat) (p : Int × String)
    (h : j ≠ i) :
    (appendAt bs i p).getD j [] = bs.getD j [] := by
  induction bs generalizing i j with
  | nil => rfl
  | cons b rest ih =>
    cases i with
    | zero =>
      cases j with
      | zero => exact absurd rfl h
      | succ m => rfl
    | succ n =>
      cases j with
      | zero => rfl
      | succ m => exact ih n m (fun hh => h (congrArg Nat.succ hh))

lemma sum_appendAt (bs : List Bucket) (i : Nat) (p : Int × String) (h : i < bs.length) :
    ((appendAt bs i p).map List.length).sum = (bs.map List.length).sum + 1 := by
  induction bs generalizing i with
  | nil => cases h
  | cons b rest ih =>
    cases i with
    | zero =>
      simp only [appendAt, List.map_cons, List.sum_cons, List.length_append,
        List.length_singleton]
      omega
    | succ n =>
      simp only [appendAt, List.map_cons, List.sum_cons]
      rw [ih n (Nat.lt_of_succ_lt_succ h)]
      omega

lemma mem_getD_appendAt (bs : List Bucket) (i : Nat) (p q : Int × String) (j : Nat)
    (hj : j < bs.length)
    (h : q ∈ (appendAt bs i p).getD j []) :
    q ∈ bs.getD j [] ∨ (q = p ∧ j = i) := by
  by_cases hji : j = i
  · subst hji
    rw [getD_appendAt_self bs j p hj] at h
    rcases List.mem_append.mp h with h1 | h2
    · exact Or.inl h1
    · exact Or.inr ⟨List.mem_singleton.mp h2, rfl⟩
  · rw [getD_appendAt_ne bs i j p hji] at h
    exact Or.inl h

lemma lookupIdx_pos (bs : List Bucket) (j : Int) (k : Int)
    (h : 0 ≤ j ∧ j.toNat < bs.length) :
    lookupIdx bs j k = bucketFind (bs.getD j.toNat []) k := if_pos h

lemma lookupIdx_neg (bs : List Bucket) (j : Int) (k : Int)
    (h : ¬ (0 ≤ j ∧ j.toNat < bs.length)) : lookupIdx bs j k = none := if_neg h

lemma lookupIdx_set_self (bs : List Bucket) (i : Nat) (b : Bucket) (j : Int) (k : Int)
    (h0 : 0 ≤ j) (hji : j.toNat = i) (hi : i < bs.length) :
    lookupIdx (bs.set i b) j k = bucketFind b k := by
  have hcond : 0 ≤ j ∧ j.toNat < (bs.set i b).length := by
    rw [List.length_set]
    exact ⟨h0, hji ▸ hi⟩
  rw [lookupIdx_pos _ _ _ hcond, hji, getD_set_self bs i b hi]

lemma lookupIdx_set_ne (bs : List Bucket) (i : Nat) (b : Bucket) (j : Int) (k : Int)
    (h : ¬ (0 ≤ j ∧ j.toNat = i)) :
    lookupIdx (bs.set i b) j k = lookupIdx bs j k := by
  by_cases h0 : 0 ≤ j
  · have hne : j.toNat ≠ i := fun hh => h ⟨h0, hh⟩
    by_cases hlt : j.toNat < bs.length
    · rw [lookupIdx_pos bs j k ⟨h0, hlt⟩,
        lookupIdx_pos _ j k ⟨h0, by rw [List.length_set]; exact hlt⟩,
        getD_set_ne bs i j.toNat b hne]
    · rw [lookupIdx_neg bs j k (fun hc => hlt hc.2),
        lookupIdx_neg _ j k (fun hc => hlt (by rw [List.length_set] at hc; exact hc.2))]
  · rw [lookupIdx_neg bs j k (fun hc => h0 hc.1),
      lookupIdx_neg _ j k (fun hc => h0 hc.1)]

/-! ### Lemmas: placement and flattened lookup -/

lemma placedFrom_nil (cap off : Int) : placedFrom cap off [] := by
  intro i hi
  cases hi

lemma placedFrom_cons (cap off : Int) (b : Bucket) (rest : List Bucket) :
    placedFrom cap off (b :: rest) ↔
      (∀ p ∈ b, Int.tmod p.1 cap = off) ∧ placedFrom cap (off + 1) rest := by
  constructor
  · intro hp
    constructor
    · intro p hpb
      have := hp 0 (Nat.succ_pos _) p hpb
      simpa using this
    · intro i hi p hpi
      have := hp (i + 1) (Nat.succ_lt_succ hi) p hpi
      rw [this]
      push_cast
      ring
  · intro ⟨hb, hrest⟩ i hi p hpi
    cases i with
    | zero => simpa using hb p hpi
    | succ n =>
      have := hrest n (Nat.lt_of_succ_lt_succ hi) p hpi
      rw [this]
      push_cast
      ring

lemma bucketFind_flatten : ∀ (bs : List Bucket) (cap off : Int),
    placedFrom cap off bs → ∀ k,
    bucketFind bs.flatten k = lookupIdx bs (Int.tmod k cap - off) k := by
  intro bs
  induction bs with
  | nil =>
    intro cap off hp k
    rw [List.flatten_nil, lookupIdx_neg]
    · rfl
    · intro hc
      exact absurd hc.2 (by simp)
  | cons b rest ih =>
    intro cap off hp k
    obtain ⟨hb, hrest⟩ := (placedFrom_cons cap off b rest).mp hp
    rw [List.flatten_cons, bucketFind_append, ih cap (off + 1) hrest k]
    by_cases hj : Int.tmod k cap - off = 0
    · have hrnone : lookupIdx rest (Int.tmod k cap - (off + 1)) k = none := by
        apply lookupIdx_neg
        intro hc
        omega
      rw [hrnone, optOr_none_right]
      have hcond : 0 ≤ Int.tmod k cap - off ∧
          (Int.tmod k cap - off).toNat < (b :: rest).length := by
        constructor
        · omega
        · have : (Int.tmod k cap - off).toNat = 0 := by omega
          rw [this]
          exact Nat.succ_pos _
      rw [lookupIdx_pos _ _ _ hcond]
      have h0 : (Int.tmod k cap - off).toNat = 0 := by omega
      rw [h0]
      rfl
    · have hbnone : bucketFind b k = none := by
        apply bucketFind_of_forall_ne
        intro p hpb hpk
        exact hj (by rw [← hpk, hb p hpb]; ring)
      rw [hbnone]
      show lookupIdx rest (Int.tmod k cap - (off + 1)) k = lookupIdx (b :: rest) (Int.tmod k cap - off) k
      by_cases h0 : 0 ≤ Int.tmod k cap - off
      · have h1 : 1 ≤ Int.tmod k cap - off := by omega
        by_cases hlt : (Int.tmod k cap - (off + 1)).toNat < rest.length
        · rw [lookupIdx_pos rest _ k ⟨by omega, hlt⟩,
            lookupIdx_pos (b :: rest) _ k ⟨h0, by simp; omega⟩]
          have hidx : (Int.tmod k cap - off).toNat = (Int.tmod k cap - (off + 1)).toNat + 1 := by
            omega
          rw [hidx]
          rfl
        · rw [lookupIdx_neg rest _ k (fun hc => hlt hc.2),
            lookupIdx_neg (b :: rest) _ k ?_]
          intro hc
          apply hlt
          have := hc.2
          simp at this
          omega
      · rw [lookupIdx_neg rest _ k (fun hc => h0 (by omega)),
          lookupIdx_neg (b :: rest) _ k (fun hc => h0 hc.1)]

lemma flatten_fst_nodup : ∀ (bs : List Bucket) (cap off : Int),
    placedFrom cap off bs →
    (∀ i, i < bs.length → ((bs.getD i []).map Prod.fst).Nodup) →
    (bs.flatten.map Prod.fst).Nodup := by
  intro bs
  induction bs with
  | nil =>
    intro cap off hp hnd
    simp
  | cons b rest ih =>
    intro cap off hp hnd
    obtain ⟨hb, hrest⟩ := (placedFrom_cons cap off b rest).mp hp
    rw [List.flatten_cons, List.map_append]
    rw [List.nodup_append]
    refine ⟨hnd 0 (Nat.succ_pos _), ?_, ?_⟩
    · exact ih cap (off + 1) hrest (fun i hi => hnd (i + 1) (Nat.succ_lt_succ hi))
    · intro x hxb hxrest
      obtain ⟨p, hpb, hpx⟩ := List.mem_map.mp hxb
      obtain ⟨q, hqrest, hqx⟩ := List.mem_map.mp hxrest
      obtain ⟨s, hsrest, hqs⟩ := List.mem_flatten.mp hqrest
      obtain ⟨i, hi⟩ := List.mem_iff_get.mp hsrest
      have hq := hrest i.1 i.2 q (by rw [get_eq_getD] at hi; rw [hi]; exact hqs)
      have hpq : p.1 = q.1 := by rw [hpx, hqx]
      have hpcap := hb p hpb
      rw [hpq, hq] at hpcap
      omega

lemma flatten_mem_nonneg_hash : ∀ (bs : List Bucket) (cap off : Int),
    placedFrom cap off bs → 0 ≤ off →
    ∀ p ∈ bs.flatten, 0 ≤ Int.tmod p.1 cap := by
  intro bs
  induction bs with
  | nil =>
    intro cap off hp hoff p hpmem
    simp at hpmem
  | cons b rest ih =>
    intro cap off hp hoff p hpmem
    obtain ⟨hb, hrest⟩ := (placedFrom_cons cap off b rest).mp hp
    rcases List.mem_append.mp (by rw [List.flatten_cons] at hpmem; exact hpmem) with h1 | h2
    · rw [hb p h1]
      exact hoff
    · exact ih cap (off + 1) hrest (by omega) p h2

/-! ### Lemmas: the rehash loop -/

lemma rehashAll_length : ∀ (ps : List (Int × String)) (acc nb : List Bucket),
    rehashAll acc ps = some nb → nb.length = acc.length := by
  intro ps
  induction ps with
  | nil =>
    intro acc nb h
    simp only [rehashAll] at h
    rw [← Option.some.inj h]
  | cons p rest ih =>
    intro acc nb h
    simp only [rehashAll] at h
    split at h
    · rw [ih _ _ h, appendAt_length]
    · exact Option.noConfusion h

lemma rehashAll_total : ∀ (ps : List (Int × String)) (acc : List Bucket),
    0 < acc.length → (∀ p ∈ ps, 0 ≤ p.1) →
    ∃ nb, rehashAll acc ps = some nb := by
  intro ps
  induction ps with
  | nil =>
    intro acc hlen hnn
    exact ⟨acc, rfl⟩
  | cons p rest ih =>
    intro acc hlen hnn
    have hp0 : 0 ≤ p.1 := hnn p (List.mem_cons_self p rest)
    have hcond : 0 ≤ utilsHash p.1 (acc.length : Int) ∧
        (utilsHash p.1 (acc.length : Int)).toNat < acc.length := by
      constructor
      · exact Int.tmod_nonneg _ hp0
      · have hlt : Int.tmod p.1 (acc.length : Int) < (acc.length : Int) :=
          Int.tmod_lt_of_pos p.1 (by exact_mod_cast hlen)
        show (Int.tmod p.1 (acc.length : Int)).toNat < acc.length
        omega
    obtain ⟨nb, hnb⟩ := ih (appendAt acc (utilsHash p.1 (acc.length : Int)).toNat p)
      (by rw [appendAt_length]; exact hlen)
      (fun q hq => hnn q (List.mem_cons_of_mem p hq))
    refine ⟨nb, ?_⟩
    simp only [rehashAll]
    rw [dif_pos hcond]
    exact hnb

lemma placedFrom_appendAt (cap : Int) (acc : List Bucket) (i : Nat) (p : Int × String)
    (hpl : placedFrom cap 0 acc) (hi : i < acc.length)
    (hp : Int.tmod p.1 cap = (i : Int)) :
    placedFrom cap 0 (appendAt acc i p) := by
  intro j hj q hq
  rw [appendAt_length] at hj
  rcases mem_getD_appendAt acc i p q j hj hq with h1 | ⟨hqp, hji⟩
  · exact hpl j hj q h1
  · rw [hqp, hp, hji]
    ring

lemma rehashAll_placed : ∀ (ps : List (Int × String)) (acc nb : List Bucket),
    rehashAll acc ps = some nb →
    placedFrom (acc.length : Int) 0 acc →
    placedFrom (acc.length : Int) 0 nb := by
  intro ps
  induction ps with
  | nil =>
    intro acc nb h hpl
    simp only [rehashAll] at h
    rw [← Option.some.inj h]
    exact hpl
  | cons p rest ih =>
    intro acc nb h hpl
    simp only [rehashAll] at h
    split at h
    case isTrue hcond =>
      have hlen := appendAt_length acc (utilsHash p.1 (acc.length : Int)).toNat p
      have := ih _ nb h (by
        rw [hlen]
        refine placedFrom_appendAt _ acc _ p hpl hcond.2 ?_
        have h1 : 0 ≤ Int.tmod p.1 (acc.length : Int) := hcond.1
        show Int.tmod p.1 (acc.length : Int) = ((Int.tmod p.1 (acc.length : Int)).toNat : Int)
        omega)
      rw [hlen] at this
      exact this
    case isFalse => exact Option.noConfusion h

lemma rehashAll_sum : ∀ (ps : List (Int × String)) (acc nb : List Bucket),
    rehashAll acc ps = some nb →
    (nb.map List.length).sum = (acc.map List.length).sum + ps.length := by
  intro ps
  induction ps with
  | nil =>
    intro acc nb h
    simp only [rehashAll] at h
    rw [← Option.some.inj h]
    rfl
  | cons p rest ih =>
    intro acc nb h
    simp only [rehashAll] at h
    split at h
    case isTrue hcond =>
      rw [ih _ nb h, sum_appendAt acc _ p hcond.2]
      show (acc.map List.length).sum + 1 + rest.length = (acc.map List.length).sum + (rest.length + 1)
      omega
    case isFalse => exact Option.noConfusion h

lemma rehashAll_lookup : ∀ (ps : List (Int × String)) (acc nb : List Bucket),
    rehashAll acc ps = some nb → ∀ k,
    lookupIdx nb (Int.tmod k (acc.length : Int)) k =
      optOr (lookupIdx acc (Int.tmod k (acc.length : Int)) k) (bucketFind ps k) := by
  intro ps
  induction ps with
  | nil =>
    intro acc nb h k
    simp only [rehashAll] at h
    rw [← Option.some.inj h]
    rw [show bucketFind ([] : Bucket) k = none from rfl, optOr_none_right]
  | cons p rest ih =>
    intro acc nb h k
    simp only [rehashAll] at h
    split at h
    case isTrue hcond =>
      have hlen := appendAt_length acc (utilsHash p.1 (acc.length : Int)).toNat p
      have ihh := ih _ nb h k
      rw [hlen] at ihh
      rw [ihh, bucketFind_cons p rest k, ← optOr_assoc]
      congr 1
      by_cases hk : p.1 = k
      · have hj : Int.tmod k (acc.length : Int) = utilsHash p.1 (acc.length : Int) := by
          rw [← hk]
          rfl
        have h0 : 0 ≤ Int.tmod k (acc.length : Int) := by rw [hj]; exact hcond.1
        have hji : (Int.tmod k (acc.length : Int)).toNat =
            (utilsHash p.1 (acc.length : Int)).toNat := by rw [hj]
        have hcondk : 0 ≤ Int.tmod k (acc.length : Int) ∧
            (Int.tmod k (acc.length : Int)).toNat < (appendAt acc (utilsHash p.1 (acc.length : Int)).toNat p).length := by
          rw [hlen]
          exact ⟨h0, hji ▸ hcond.2⟩
        rw [lookupIdx_pos _ _ _ hcondk, hji,
          getD_appendAt_self acc _ p hcond.2, bucketFind_append,
          lookupIdx_pos acc _ k ⟨h0, hji ▸ hcond.2⟩, hji]
        congr 1
      · rw [if_neg hk, optOr_none_right]
        by_cases h0 : 0 ≤ Int.tmod k (acc.length : Int)
        · by_cases hji : (Int.tmod k (acc.length : Int)).toNat =
              (utilsHash p.1 (acc.length : Int)).toNat
          · by_cases hlt : (Int.tmod k (acc.length : Int)).toNat < acc.length
            · rw [lookupIdx_pos _ _ _ (by rw [hlen]; exact ⟨h0, hlt⟩),
                lookupIdx_pos acc _ k ⟨h0, hlt⟩, hji,
                getD_appendAt_self acc _ p hcond.2, bucketFind_append]
              rw [show bucketFind [p] k = if p.1 = k then some p.2 else bucketFind [] k from rfl]
              rw [if_neg hk, show bucketFind ([] : Bucket) k = none from rfl, optOr_none_right]
            · rw [lookupIdx_neg _ _ _ (by rw [hlen]; exact fun hc => hlt hc.2),
                lookupIdx_neg acc _ k (fun hc => hlt hc.2)]
          · by_cases hlt : (Int.tmod k (acc.length : Int)).toNat < acc.length
            · rw [lookupIdx_pos _ _ _ (by rw [hlen]; exact ⟨h0, hlt⟩),
                lookupIdx_pos acc _ k ⟨h0, hlt⟩,
                getD_appendAt_ne acc _ _ p hji]
            · rw [lookupIdx_neg _ _ _ (by rw [hlen]; exact fun hc => hlt hc.2),
                lookupIdx_neg acc _ k (fun hc => hlt hc.2)]
        · rw [lookupIdx_neg _ _ _ (fun hc => h0 hc.1),
            lookupIdx_neg acc _ k (fun hc => h0 hc.1)]
    case isFalse => exact Option.noConfusion h

lemma rehashAll_nodup : ∀ (ps : List (Int × String)) (acc nb : List Bucket),
    rehashAll acc ps = some nb →
    (ps.map Prod.fst).Nodup →
    (∀ i, i < acc.length → ((acc.getD i []).map Prod.fst).Nodup) →
    (∀ i, i < acc.length → ∀ q ∈ acc.getD i [], q.1 ∉ ps.map Prod.fst) →
    (∀ i, i < nb.length → ((nb.getD i []).map Prod.fst).Nodup) := by
  intro ps
  induction ps with
  | nil =>
    intro acc nb h hps hnd havoid
    simp only [rehashAll] at h
    rw [← Option.some.inj h]
    exact hnd
  | cons p rest ih =>
    intro acc nb h hps hnd havoid
    simp only [rehashAll] at h
    split at h
    case isTrue hcond =>
      rw [List.map_cons, List.nodup_cons] at hps
      have hlen := appendAt_length acc (utilsHash p.1 (acc.length : Int)).toNat p
      refine ih _ nb h hps.2 ?_ ?_
      · intro i hi
        rw [hlen] at hi
        by_cases hii : i = (utilsHash p.1 (acc.length : Int)).toNat
        · rw [hii, getD_appendAt_self acc _ p hcond.2, List.map_append]
          rw [List.nodup_append]
          refine ⟨hnd _ hcond.2, List.nodup_singleton _, ?_⟩
          intro x hx hxp
          simp only [List.map_cons, List.map_nil] at hxp
          rw [List.mem_singleton] at hxp
          obtain ⟨q, hq, hqx⟩ := List.mem_map.mp hx
          have hav := havoid _ hcond.2 q hq
          refine hav ?_
          rw [List.map_cons, hqx, hxp]
          exact List.mem_cons_self _ _
        · rw [getD_appendAt_ne acc _ i p hii]
          exact hnd i hi
      · intro i hi q hq
        rw [hlen] at hi
        rcases mem_getD_appendAt acc _ p q i hi hq with h1 | ⟨hqp, hii⟩
        · intro hmem
          exact havoid i hi q h1 (List.mem_cons_of_mem _ hmem)
        · rw [hqp]
          exact hps.1
    case isFalse => exact Option.noConfusion h

/-! ### Lemmas: hash guards, Search, ContainsKey -/

lemma sum_map_length_set (bs : List Bucket) (i : Nat) (b' : Bucket) (h : i < bs.length) :
    ((bs.set i b').map List.length).sum + (bs.getD i []).length
      = (bs.map List.length).sum + b'.length := by
  induction bs generalizing i with
  | nil => cases h
  | cons b0 rest ih =>
    cases i with
    | zero =>
      simp only [List.set, List.map_cons, List.sum_cons, List.getD]
      show b'.length + (rest.map List.length).sum + b0.length
        = b0.length + (rest.map List.length).sum + b'.length
      omega
    | succ n =>
      simp only [List.set, List.map_cons, List.sum_cons, List.getD]
      have := ih n (Nat.lt_of_succ_lt_succ h)
      show b0.length + ((rest.set n b').map List.length).sum + (rest.getD n []).length
        = b0.length + (rest.map List.length).sum + b'.length
      omega

lemma sum_replicate_nil (n : Nat) :
    ((List.replicate n ([] : Bucket)).map List.length).sum = 0 := by
  induction n with
  | zero => rfl
  | succ m ih =>
    simp only [List.replicate, List.map_cons, List.sum_cons, ih]
    rfl

lemma placedFrom_replicate (cap : Int) (n : Nat) :
    placedFrom cap 0 (List.replicate n ([] : Bucket)) := by
  intro i hi p hp
  rw [getD_replicate_nil] at hp
  cases hp

lemma lookupIdx_replicate_nil (n : Nat) (j : Int) (k : Int) :
    lookupIdx (List.replicate n ([] : Bucket)) j k = none := by
  by_cases hc : 0 ≤ j ∧ j.toNat < (List.replicate n ([] : Bucket)).length
  · rw [lookupIdx_pos _ _ _ hc, getD_replicate_nil]
    rfl
  · exact lookupIdx_neg _ _ _ hc

lemma hash_congr (t t' : HashTable) (k : Int)
    (h : t'.buckets.length = t.buckets.length) : t'.hash k = t.hash k := by
  show utilsHash k (t'.buckets.length : Int) = utilsHash k (t.buckets.length : Int)
  rw [h]

lemma hash_guard_of_nonneg (t : HashTable) (k : Int)
    (hlen : 0 < t.buckets.length) (hk : 0 ≤ k) :
    0 ≤ t.hash k ∧ (t.hash k).toNat < t.buckets.length := by
  have h1 : 0 ≤ Int.tmod k (t.buckets.length : Int) := Int.tmod_nonneg _ hk
  have h2 : Int.tmod k (t.buckets.length : Int) < (t.buckets.length : Int) :=
    Int.tmod_lt_of_pos k (by exact_mod_cast hlen)
  refine ⟨h1, ?_⟩
  show (Int.tmod k (t.buckets.length : Int)).toNat < t.buckets.length
  omega

lemma search_pos (t : HashTable) (k : Int)
    (h : 0 ≤ t.hash k ∧ (t.hash k).toNat < t.buckets.length) :
    t.Search k = .ok (t.findE k) := by
  simp only [HashTable.Search, HashTable.findE, lookupIdx]
  rw [dif_pos h, if_pos h, get_eq_getD]

lemma search_neg (t : HashTable) (k : Int)
    (h : ¬ (0 ≤ t.hash k ∧ (t.hash k).toNat < t.buckets.length)) :
    t.Search k = .error () := by
  simp only [HashTable.Search]
  rw [dif_neg h]

lemma search_ok_elim (t : HashTable) (k : Int) (r : Option String)
    (h : t.Search k = .ok r) :
    (0 ≤ t.hash k ∧ (t.hash k).toNat < t.buckets.length) ∧ r = t.findE k := by
  by_cases hc : 0 ≤ t.hash k ∧ (t.hash k).toNat < t.buckets.length
  · rw [search_pos t k hc] at h
    exact ⟨hc, (Except.ok.inj h).symm⟩
  · rw [search_neg t k hc] at h
    exact Except.noConfusion h

lemma findE_some_search (t : HashTable) (k : Int) (v : String)
    (h : t.findE k = some v) : t.Search k = .ok (some v) := by
  by_cases hc : 0 ≤ t.hash k ∧ (t.hash k).toNat < t.buckets.length
  · rw [search_pos t k hc, h]
  · rw [HashTable.findE, lookupIdx_neg _ _ _ hc] at h
    exact Option.noConfusion h

lemma findE_pos (t : HashTable) (k : Int)
    (h : 0 ≤ t.hash k ∧ (t.hash k).toNat < t.buckets.length) :
    t.findE k = bucketFind (t.buckets.getD (t.hash k).toNat []) k :=
  lookupIdx_pos _ _ _ h

lemma findE_new (capacity : Int) (lf : ℚ) (t : HashTable)
    (h : HashTable.New capacity lf = .ok t) (k : Int) : t.findE k = none := by
  simp only [HashTable.New] at h
  split at h
  · exact Except.noConfusion h
  · split at h
    · exact Except.noConfusion h
    · rw [← Except.ok.inj h]
      exact lookupIdx_replicate_nil _ _ k

lemma new_ok_elim (capacity : Int) (lf : ℚ) (t : HashTable)
    (h : HashTable.New capacity lf = .ok t) :
    0 < capacity ∧ 0 < lf ∧ lf ≤ 1 ∧
    t = { num_keys := 0, load_factor := lf,
          buckets := List.replicate capacity.toNat [] } := by
  simp only [HashTable.New] at h
  split at h
  case isTrue hc => exact Except.noConfusion h
  case isFalse hc =>
    split at h
    case isTrue hc2 => exact Except.noConfusion h
    case isFalse hc2 =>
      push_neg at hc hc2
      exact ⟨hc, hc2.1, hc2.2, (Except.ok.inj h).symm⟩

lemma WF_new (capacity : Int) (lf : ℚ) (t : HashTable)
    (h : HashTable.New capacity lf = .ok t) : WF t := by
  obtain ⟨hcap, hlf0, hlf1, ht⟩ := new_ok_elim capacity lf t h
  subst ht
  refine ⟨?_, ?_, ?_, ?_⟩
  · show 0 < (List.replicate capacity.toNat ([] : Bucket)).length
    rw [List.length_replicate]
    omega
  · exact placedFrom_replicate _ _
  · intro i hi
    show ((List.replicate capacity.toNat ([] : Bucket)).getD i []).map Prod.fst |>.Nodup
    rw [getD_replicate_nil]
    exact List.nodup_nil
  · show (0 : Int) = ((List.replicate capacity.toNat ([] : Bucket)).map List.length).sum
    rw [sum_replicate_nil]
    rfl

/-! ### Lemmas: the resize step -/

lemma optOr_none_left (b : Option String) : optOr none b = b := rfl

lemma resizeStep_spec (t1 t' : HashTable)
    (hlen : 0 < t1.buckets.length)
    (hplaced : placedFrom (t1.buckets.length : Int) 0 t1.buckets)
    (hnodup : ∀ i, i < t1.buckets.length → ((t1.buckets.getD i []).map Prod.fst).Nodup)
    (hok : resizeStep t1 = .ok t') :
    t'.num_keys = t1.num_keys ∧ t'.load_factor = t1.load_factor ∧
    (t'.buckets.length = t1.buckets.length ∨ t'.buckets.length = 2 * t1.buckets.length) ∧
    (t'.buckets.length = t1.buckets.length ↔
      ¬ ((t1.num_keys : ℚ) / (t1.buckets.length : ℚ) ≥ t1.load_factor)) ∧
    (∀ k, t'.findE k = t1.findE k) ∧
    placedFrom (t'.buckets.length : Int) 0 t'.buckets ∧
    (∀ i, i < t'.buckets.length → ((t'.buckets.getD i []).map Prod.fst).Nodup) ∧
    (t'.buckets.map List.length).sum = (t1.buckets.map List.length).sum := by
  simp only [resizeStep] at hok
  split at hok
  case isFalse hcond =>
    have ht : t1 = t' := Except.ok.inj hok
    subst ht
    exact ⟨rfl, rfl, Or.inl rfl, iff_of_true rfl hcond, fun k => rfl, hplaced, hnodup, rfl⟩
  case isTrue hcond =>
    cases hre : rehashAll (List.replicate (t1.buckets.length * kGrowthCoefficient) [])
        t1.buckets.flatten with
    | none =>
      rw [hre] at hok
      exact Except.noConfusion hok
    | some nb =>
      rw [hre] at hok
      have ht' : { t1 with buckets := nb } = t' := Except.ok.inj hok
      subst ht'
      have hlennb : nb.length =
          (List.replicate (t1.buckets.length * kGrowthCoefficient) ([] : Bucket)).length :=
        rehashAll_length _ _ _ hre
      rw [List.length_replicate] at hlennb
      have hlen2 : nb.length = t1.buckets.length * 2 := hlennb
      refine ⟨rfl, rfl, Or.inr (by show nb.length = 2 * t1.buckets.length; omega),
        iff_of_false (by show ¬ (nb.length = t1.buckets.length); omega)
          (fun hn => hn hcond),
        ?_, ?_, ?_, ?_⟩
      · intro k
        show lookupIdx nb (Int.tmod k (nb.length : Int)) k = t1.findE k
        have hcast : (nb.length : Int) =
            ((List.replicate (t1.buckets.length * kGrowthCoefficient) ([] : Bucket)).length : Int) := by
          rw [List.length_replicate, hlennb]
        rw [hcast, rehashAll_lookup _ _ _ hre k, lookupIdx_replicate_nil, optOr_none_left,
          bucketFind_flatten t1.buckets (t1.buckets.length : Int) 0 hplaced k]
        show lookupIdx t1.buckets (Int.tmod k (t1.buckets.length : Int) - 0) k = _
        rw [sub_zero]
        rfl
      · show placedFrom (nb.length : Int) 0 nb
        have hpl := rehashAll_placed _ _ _ hre (placedFrom_replicate _ _)
        rw [List.length_replicate] at hpl
        rw [show (nb.length : Int) = ((t1.buckets.length * kGrowthCoefficient : Nat) : Int) by
          rw [hlennb]]
        exact hpl
      · show ∀ i, i < nb.length → ((nb.getD i []).map Prod.fst).Nodup
        refine rehashAll_nodup _ _ _ hre
          (flatten_fst_nodup t1.buckets (t1.buckets.length : Int) 0 hplaced hnodup) ?_ ?_
        · intro i hi
          rw [getD_replicate_nil]
          exact List.nodup_nil
        · intro i hi q hq
          rw [getD_replicate_nil] at hq
          cases hq
      · show (nb.map List.length).sum = (t1.buckets.map List.length).sum
        rw [rehashAll_sum _ _ _ hre, sum_replicate_nil, List.length_flatten]
        omega

/-! ### Lemmas: Put -/

lemma setBucket_wfparts (t : HashTable) (i0 : Nat) (b' : Bucket)
    (hlen : 0 < t.buckets.length) (hi : i0 < t.buckets.length)
    (hplaced : placedFrom (t.buckets.length : Int) 0 t.buckets)
    (hnodup : ∀ i, i < t.buckets.length → ((t.buckets.getD i []).map Prod.fst).Nodup)
    (hpl' : ∀ p ∈ b', Int.tmod p.1 (t.buckets.length : Int) = (i0 : Int))
    (hnd' : (b'.map Prod.fst).Nodup) :
    0 < (t.buckets.set i0 b').length ∧
    placedFrom ((t.buckets.set i0 b').length : Int) 0 (t.buckets.set i0 b') ∧
    (∀ i, i < (t.buckets.set i0 b').length →
      (((t.buckets.set i0 b').getD i []).map Prod.fst).Nodup) := by
  refine ⟨by rw [List.length_set]; exact hlen, ?_, ?_⟩
  · intro j hj q hq
    rw [List.length_set] at hj
    rw [show ((t.buckets.set i0 b').length : Int) = (t.buckets.length : Int) by
      rw [List.length_set]]
    by_cases hji : j = i0
    · subst hji
      rw [getD_set_self _ _ _ hj] at hq
      rw [hpl' q hq]
      omega
    · rw [getD_set_ne _ _ _ _ hji] at hq
      exact hplaced j hj q hq
  · intro j hj
    rw [List.length_set] at hj
    by_cases hji : j = i0
    · subst hji
      rw [getD_set_self _ _ _ hj]
      exact hnd'
    · rw [getD_set_ne _ _ _ _ hji]
      exact hnodup j hj

lemma putCore_spec (t : HashTable) (i0 : Nat) (b' : Bucket) (nk : Int) (t' : HashTable)
    (hlen : 0 < t.buckets.length) (hi : i0 < t.buckets.length)
    (hplaced : placedFrom (t.buckets.length : Int) 0 t.buckets)
    (hnodup : ∀ i, i < t.buckets.length → ((t.buckets.getD i []).map Prod.fst).Nodup)
    (hpl' : ∀ p ∈ b', Int.tmod p.1 (t.buckets.length : Int) = (i0 : Int))
    (hnd' : (b'.map Prod.fst).Nodup)
    (hok : resizeStep { t with buckets := t.buckets.set i0 b', num_keys := nk } = .ok t') :
    t'.num_keys = nk ∧ t'.load_factor = t.load_factor ∧
    (∀ k', t'.findE k' =
      lookupIdx (t.buckets.set i0 b') (Int.tmod k' (t.buckets.length : Int)) k') ∧
    (t'.buckets.length = t.buckets.length ∨ t'.buckets.length = 2 * t.buckets.length) ∧
    (t'.buckets.length = t.buckets.length ↔
      ¬ ((nk : ℚ) / (t.buckets.length : ℚ) ≥ t.load_factor)) ∧
    placedFrom (t'.buckets.length : Int) 0 t'.buckets ∧
    (∀ i, i < t'.buckets.length → ((t'.buckets.getD i []).map Prod.fst).Nodup) ∧
    (t'.buckets.map List.length).sum = ((t.buckets.set i0 b').map List.length).sum := by
  have hparts := setBucket_wfparts t i0 b' hlen hi hplaced hnodup hpl' hnd'
  have hres := resizeStep_spec
    { t with buckets := t.buckets.set i0 b', num_keys := nk } t'
    hparts.1 hparts.2.1 hparts.2.2 hok
  obtain ⟨h1, h2, h3, h4, h5, h6, h7, h8⟩ := hres
  dsimp only at h1 h2 h3 h4 h6 h7 h8
  have hLset : (t.buckets.set i0 b').length = t.buckets.length := List.length_set _ _ _
  refine ⟨h1, h2, ?_, ?_, ?_, h6, h7, h8⟩
  · intro k'
    rw [h5 k']
    show lookupIdx (t.buckets.set i0 b')
      (Int.tmod k' (((t.buckets.set i0 b').length : Nat) : Int)) k' = _
    rw [hLset]
  · rcases h3 with h | h
    · exact Or.inl (by rw [h, hLset])
    · exact Or.inr (by rw [h, hLset])
  · rw [hLset] at h4
    exact h4

lemma put_ok_spec (t : HashTable) (k : Int) (v : String) (t' : HashTable)
    (hwf : WF t) (hok : t.Put k v = .ok t') :
    WF t' ∧
    t'.load_factor = t.load_factor ∧
    (∀ k', t'.findE k' = if k' = k then some v else t.findE k') ∧
    t'.num_keys = (if (t.findE k).isSome then t.num_keys else t.num_keys + 1) ∧
    (t'.buckets.length = t.buckets.length ∨ t'.buckets.length = 2 * t.buckets.length) ∧
    (t'.buckets.length = t.buckets.length ↔
      ¬ ((t'.num_keys : ℚ) / (t.buckets.length : ℚ) ≥ t.load_factor)) := by
  obtain ⟨hlen, hplaced, hnodup, hcount⟩ := hwf
  simp only [HashTable.Put] at hok
  split at hok
  case isFalse hc => exact Except.noConfusion hok
  case isTrue hc =>
    rw [get_eq_getD t.buckets (t.hash k).toNat hc.2] at hok
    have hfindk : t.findE k = bucketFind (t.buckets.getD (t.hash k).toNat []) k :=
      findE_pos t k hc
    have hhashk : ((((t.hash k).toNat : Nat)) : Int) = Int.tmod k (t.buckets.length : Int) := by
      have h0 : (0 : Int) ≤ t.hash k := hc.1
      show (((t.hash k).toNat : Nat) : Int) = t.hash k
      omega
    by_cases hfound : (bucketFind (t.buckets.getD (t.hash k).toNat []) k).isSome = true
    · rw [if_pos hfound] at hok
      have hpl' : ∀ p ∈ bucketReplace (t.buckets.getD (t.hash k).toNat []) k v,
          Int.tmod p.1 (t.buckets.length : Int) = (((t.hash k).toNat : Nat) : Int) := by
        intro p hp
        obtain ⟨q, hq, hpq⟩ := mem_bucketReplace _ _ _ p hp
        rw [hpq, hplaced (t.hash k).toNat hc.2 q hq]
        omega
      have hnd' : ((bucketReplace (t.buckets.getD (t.hash k).toNat []) k v).map
          Prod.fst).Nodup := by
        rw [bucketReplace_map_fst]
        exact hnodup _ hc.2
      have hcore := putCore_spec t (t.hash k).toNat _ t.num_keys t'
        hlen hc.2 hplaced hnodup hpl' hnd' hok
      obtain ⟨g1, g2, g3, g4, g5, g6, g7, g8⟩ := hcore
      have hnum : t'.num_keys = (if (t.findE k).isSome then t.num_keys else t.num_keys + 1) := by
        rw [hfindk, if_pos hfound]
        exact g1
      have hfind : ∀ k', t'.findE k' = if k' = k then some v else t.findE k' := by
        intro k'
        rw [g3 k']
        by_cases hk' : k' = k
        · subst hk'
          rw [if_pos rfl]
          rw [lookupIdx_set_self t.buckets (t.hash k').toNat _
            (Int.tmod k' (t.buckets.length : Int)) k' hc.1 (by omega) hc.2]
          exact bucketFind_bucketReplace_self _ _ _ hfound
        · rw [if_neg hk']
          show _ = lookupIdx t.buckets (Int.tmod k' (t.buckets.length : Int)) k'
          by_cases hsame : 0 ≤ Int.tmod k' (t.buckets.length : Int) ∧
              (Int.tmod k' (t.buckets.length : Int)).toNat = (t.hash k).toNat
          · rw [lookupIdx_set_self t.buckets (t.hash k).toNat _ _ k' hsame.1 hsame.2 hc.2,
              lookupIdx_pos t.buckets _ k' ⟨hsame.1, by rw [hsame.2]; exact hc.2⟩, hsame.2]
            exact bucketFind_bucketReplace_ne _ _ _ _ hk'
          · rw [lookupIdx_set_ne t.buckets (t.hash k).toNat _ _ k' hsame]
      have hwf' : WF t' := by
        refine ⟨?_, g6, g7, ?_⟩
        · rcases g4 with h | h <;> rw [h] <;> omega
        · rw [g1, hcount]
          have hs := sum_map_length_set t.buckets (t.hash k).toNat
            (bucketReplace (t.buckets.getD (t.hash k).toNat []) k v) hc.2
          rw [bucketReplace_length] at hs
          rw [g8]
          congr 1
          omega
      refine ⟨hwf', g2, hfind, hnum, g4, ?_⟩
      rw [g1]
      exact g5
    · rw [if_neg hfound] at hok
      have hbnone : bucketFind (t.buckets.getD (t.hash k).toNat []) k = none := by
        cases hbf : bucketFind (t.buckets.getD (t.hash k).toNat []) k with
        | none => rfl
        | some w =>
          rw [hbf] at hfound
          exact absurd rfl hfound
      have hpl' : ∀ p ∈ (t.buckets.getD (t.hash k).toNat []) ++ [(k, v)],
          Int.tmod p.1 (t.buckets.length : Int) = (((t.hash k).toNat : Nat) : Int) := by
        intro p hp
        rcases List.mem_append.mp hp with h1 | h2
        · rw [hplaced (t.hash k).toNat hc.2 p h1]
          omega
        · rw [List.mem_singleton] at h2
          rw [h2]
          show Int.tmod k (t.buckets.length : Int) = _
          rw [hhashk]
      have hnd' : (((t.buckets.getD (t.hash k).toNat []) ++ [(k, v)]).map
          Prod.fst).Nodup := by
        rw [List.map_append]
        rw [List.nodup_append]
        refine ⟨hnodup _ hc.2, List.nodup_singleton _, ?_⟩
        intro x hx hxk
        simp only [List.map_cons, List.map_nil] at hxk
        rw [List.mem_singleton] at hxk
        rw [bucketFind_eq_none_iff] at hbnone
        rw [hxk] at hx
        exact hbnone hx
      have hcore := putCore_spec t (t.hash k).toNat _ (t.num_keys + 1) t'
        hlen hc.2 hplaced hnodup hpl' hnd' hok
      obtain ⟨g1, g2, g3, g4, g5, g6, g7, g8⟩ := hcore
      have hnum : t'.num_keys = (if (t.findE k).isSome then t.num_keys else t.num_keys + 1) := by
        rw [hfindk, hbnone]
        show t'.num_keys = (if (none : Option String).isSome then t.num_keys else t.num_keys + 1)
        rw [g1]
        rfl
      have hfind : ∀ k', t'.findE k' = if k' = k then some v else t.findE k' := by
        intro k'
        rw [g3 k']
        by_cases hk' : k' = k
        · subst hk'
          rw [if_pos rfl]
          rw [lookupIdx_set_self t.buckets (t.hash k').toNat _
            (Int.tmod k' (t.buckets.length : Int)) k' hc.1 (by omega) hc.2]
          rw [bucketFind_append, hbnone, optOr_none_left]
          show (if k' = k' then some v else bucketFind [] k') = some v
          rw [if_pos rfl]
        · rw [if_neg hk']
          show _ = lookupIdx t.buckets (Int.tmod k' (t.buckets.length : Int)) k'
          by_cases hsame : 0 ≤ Int.tmod k' (t.buckets.length : Int) ∧
              (Int.tmod k' (t.buckets.length : Int)).toNat = (t.hash k).toNat
          · rw [lookupIdx_set_self t.buckets (t.hash k).toNat _ _ k' hsame.1 hsame.2 hc.2,
              lookupIdx_pos t.buckets _ k' ⟨hsame.1, by rw [hsame.2]; exact hc.2⟩, hsame.2]
            rw [bucketFind_append]
            rw [show bucketFind [(k, v)] k' = if k = k' then some v else bucketFind [] k' from rfl]
            rw [if_neg (fun hh => hk' hh.symm)]
            exact optOr_none_right _
          · rw [lookupIdx_set_ne t.buckets (t.hash k).toNat _ _ k' hsame]
      have hwf' : WF t' := by
        refine ⟨?_, g6, g7, ?_⟩
        · rcases g4 with h | h <;> rw [h] <;> omega
        · rw [g1, hcount]
          have hs := sum_map_length_set t.buckets (t.hash k).toNat
            ((t.buckets.getD (t.hash k).toNat []) ++ [(k, v)]) hc.2
          rw [List.length_append, List.length_singleton] at hs
          rw [g8]
          have hnat : ((t.buckets.set (t.hash k).toNat
              ((t.buckets.getD (t.hash k).toNat []) ++ [(k, v)])).map List.length).sum
              = (t.buckets.map List.length).sum + 1 := by omega
          rw [hnat]
          push_cast
          ring
      refine ⟨hwf', g2, hfind, hnum, g4, ?_⟩
      rw [g1]
      exact g5

/-! ### Lemmas: Remove -/

lemma findE_setBucket (t : HashTable) (i0 : Nat) (b' : Bucket) (nk : Int) (k' : Int)
    (hi : i0 < t.buckets.length) :
    ({ t with buckets := t.buckets.set i0 b', num_keys := nk } : HashTable).findE k' =
      if 0 ≤ Int.tmod k' (t.buckets.length : Int) ∧
         (Int.tmod k' (t.buckets.length : Int)).toNat = i0
      then bucketFind b' k'
      else t.findE k' := by
  show lookupIdx (t.buckets.set i0 b')
      (Int.tmod k' (((t.buckets.set i0 b').length : Nat) : Int)) k' = _
  rw [List.length_set]
  by_cases hs : 0 ≤ Int.tmod k' (t.buckets.length : Int) ∧
      (Int.tmod k' (t.buckets.length : Int)).toNat = i0
  · rw [if_pos hs, lookupIdx_set_self t.buckets i0 b' _ k' hs.1 hs.2 hi]
  · rw [if_neg hs, lookupIdx_set_ne t.buckets i0 b' _ k' hs]
    rfl

lemma bucketFind_of_brf_fst (b : Bucket) (k : Int) (w : String)
    (hfound : (bucketFind b k).isSome = true)
    (hfst : (bucketRemoveFirst b k).1 = some w) : bucketFind b k = some w := by
  obtain ⟨u, hu⟩ := Option.isSome_iff_exists.mp hfound
  have := bucketRemoveFirst_fst b k u hu
  rw [this] at hfst
  rw [hu, Option.some.inj hfst]

lemma remove_ok_elim (t : HashTable) (k : Int) (r : Option String) (t' : HashTable)
    (hok : t.Remove k = .ok (r, t')) :
    (0 ≤ t.hash k ∧ (t.hash k).toNat < t.buckets.length) ∧
    ((r = none ∧ t' = t ∧
        bucketFind (t.buckets.getD (t.hash k).toNat []) k = none) ∨
     (∃ w, r = some w ∧
        bucketFind (t.buckets.getD (t.hash k).toNat []) k = some w ∧
        t' = { t with
          buckets := t.buckets.set (t.hash k).toNat
            (bucketRemoveFirst (t.buckets.getD (t.hash k).toNat []) k).2,
          num_keys := t.num_keys - 1 })) := by
  simp only [HashTable.Remove] at hok
  split at hok
  case isFalse hc => exact Except.noConfusion hok
  case isTrue hc =>
    rw [get_eq_getD t.buckets (t.hash k).toNat hc.2] at hok
    refine ⟨hc, ?_⟩
    by_cases hfound : (bucketFind (t.buckets.getD (t.hash k).toNat []) k).isSome = true
    · rw [if_pos hfound] at hok
      rcases hbrf : bucketRemoveFirst (t.buckets.getD (t.hash k).toNat []) k with ⟨o, b2⟩
      rw [hbrf] at hok
      cases o with
      | none =>
        obtain ⟨u, hu⟩ := Option.isSome_iff_exists.mp hfound
        have := bucketRemoveFirst_fst _ _ u hu
        rw [hbrf] at this
        exact Option.noConfusion this
      | some w =>
        have hpair := Except.ok.inj hok
        have hr : some w = r := congrArg Prod.fst hpair
        have ht : t' = _ := (congrArg Prod.snd hpair).symm
        refine Or.inr ⟨w, hr.symm, ?_, ?_⟩
        · exact bucketFind_of_brf_fst _ _ w hfound (by rw [hbrf])
        · rw [ht]
    · rw [if_neg hfound] at hok
      have hpair := Except.ok.inj hok
      have hr : none = r := congrArg Prod.fst hpair
      have ht : t' = t := (congrArg Prod.snd hpair).symm
      refine Or.inl ⟨hr.symm, ht, ?_⟩
      cases hbf : bucketFind (t.buckets.getD (t.hash k).toNat []) k with
      | none => rfl
      | some w =>
        rw [hbf] at hfound
        exact absurd rfl hfound

lemma remove_frame (t : HashTable) (k : Int) (r : Option String) (t' : HashTable)
    (hok : t.Remove k = .ok (r, t')) :
    t'.buckets.length = t.buckets.length ∧ t'.load_factor = t.load_factor ∧
    (t'.num_keys = t.num_keys ∨ t'.num_keys = t.num_keys - 1) ∧
    (∀ k', k' ≠ k → t'.Search k' = t.Search k') := by
  obtain ⟨hc, hcase⟩ := remove_ok_elim t k r t' hok
  rcases hcase with ⟨hr, ht, hbf⟩ | ⟨w, hr, hbf, ht⟩
  · subst ht
    exact ⟨rfl, rfl, Or.inl rfl, fun k' hk' => rfl⟩
  · subst ht
    refine ⟨List.length_set _ _ _, rfl, Or.inr rfl, ?_⟩
    intro k' hk'
    have hlenS : (t.buckets.set (t.hash k).toNat
        (bucketRemoveFirst (t.buckets.getD (t.hash k).toNat []) k).2).length
        = t.buckets.length := List.length_set _ _ _
    have hhash : ({ t with
        buckets := t.buckets.set (t.hash k).toNat
          (bucketRemoveFirst (t.buckets.getD (t.hash k).toNat []) k).2,
        num_keys := t.num_keys - 1 } : HashTable).hash k' = t.hash k' :=
      hash_congr _ _ _ hlenS
    by_cases hg : 0 ≤ t.hash k' ∧ (t.hash k').toNat < t.buckets.length
    · rw [search_pos _ k' (by rw [hhash]; exact ⟨hg.1, by
        show (t.hash k').toNat < (t.buckets.set _ _).length
        rw [hlenS]; exact hg.2⟩)]
      rw [search_pos t k' hg]
      have hfe := findE_setBucket t (t.hash k).toNat
        (bucketRemoveFirst (t.buckets.getD (t.hash k).toNat []) k).2
        (t.num_keys - 1) k' hc.2
      rw [hfe]
      by_cases hs : 0 ≤ Int.tmod k' (t.buckets.length : Int) ∧
          (Int.tmod k' (t.buckets.length : Int)).toNat = (t.hash k).toNat
      · rw [if_pos hs, bucketFind_bucketRemoveFirst_ne _ _ _ hk']
        have hs2 : (t.hash k').toNat = (t.hash k).toNat := hs.2
        rw [findE_pos t k' hg, hs2]
      · rw [if_neg hs]
    · rw [search_neg t k' hg, search_neg _ k' (by
        rw [hhash]
        intro hcc
        exact hg ⟨hcc.1, by rw [← hlenS]; exact hcc.2⟩)]

lemma remove_ok_spec (t : HashTable) (k : Int) (r : Option String) (t' : HashTable)
    (hwf : WF t) (hok : t.Remove k = .ok (r, t')) :
    WF t' ∧ t'.load_factor = t.load_factor ∧
    t'.buckets.length = t.buckets.length ∧
    (r = none → t' = t ∧ t.findE k = none) ∧
    (∀ v, r = some v → t.findE k = some v ∧ t'.findE k = none ∧
      t'.num_keys = t.num_keys - 1 ∧ (∀ k', k' ≠ k → t'.findE k' = t.findE k')) := by
  obtain ⟨hlen, hplaced, hnodup, hcount⟩ := hwf
  obtain ⟨hc, hcase⟩ := remove_ok_elim t k r t' hok
  have hfindk : t.findE k = bucketFind (t.buckets.getD (t.hash k).toNat []) k :=
    findE_pos t k hc
  rcases hcase with ⟨hr, ht, hbf⟩ | ⟨w, hr, hbf, ht⟩
  · subst ht
    subst hr
    refine ⟨⟨hlen, hplaced, hnodup, hcount⟩, rfl, rfl, ?_, ?_⟩
    · intro _
      exact ⟨rfl, by rw [hfindk, hbf]⟩
    · intro v hv
      exact Option.noConfusion hv
  · subst ht
    subst hr
    have hb2pl : ∀ p ∈ (bucketRemoveFirst (t.buckets.getD (t.hash k).toNat []) k).2,
        Int.tmod p.1 (t.buckets.length : Int) = (((t.hash k).toNat : Nat) : Int) := by
      intro p hp
      have hmem := mem_bucketRemoveFirst _ _ p hp
      rw [hplaced (t.hash k).toNat hc.2 p hmem]
      omega
    have hb2nd : (((bucketRemoveFirst (t.buckets.getD (t.hash k).toNat []) k).2).map
        Prod.fst).Nodup := by
      have hsub := (bucketRemoveFirst_sublist (t.buckets.getD (t.hash k).toNat []) k).map
        Prod.fst
      exact (hnodup _ hc.2).sublist hsub
    have hparts := setBucket_wfparts t (t.hash k).toNat _ hlen hc.2 hplaced hnodup
      hb2pl hb2nd
    have hlenS : (t.buckets.set (t.hash k).toNat
        (bucketRemoveFirst (t.buckets.getD (t.hash k).toNat []) k).2).length
        = t.buckets.length := List.length_set _ _ _
    have hsum := sum_map_length_set t.buckets (t.hash k).toNat
      (bucketRemoveFirst (t.buckets.getD (t.hash k).toNat []) k).2 hc.2
    have hblen := bucketRemoveFirst_length (t.buckets.getD (t.hash k).toNat []) k w hbf
    have hfe := fun k' => findE_setBucket t (t.hash k).toNat
      (bucketRemoveFirst (t.buckets.getD (t.hash k).toNat []) k).2
      (t.num_keys - 1) k' hc.2
    refine ⟨⟨?_, hparts.2.1, hparts.2.2, ?_⟩, rfl, hlenS, ?_, ?_⟩
    · exact hparts.1
    · show t.num_keys - 1 = (((t.buckets.set (t.hash k).toNat
          (bucketRemoveFirst (t.buckets.getD (t.hash k).toNat []) k).2).map
          List.length).sum : Int)
      rw [hcount]
      omega
    · intro hcontra
      exact Option.noConfusion hcontra
    · intro v hv
      have hwv : w = v := Option.some.inj hv
      subst hwv
      refine ⟨by rw [hfindk, hbf], ?_, rfl, ?_⟩
      · rw [hfe k]
        have hs : 0 ≤ Int.tmod k (t.buckets.length : Int) ∧
            (Int.tmod k (t.buckets.length : Int)).toNat = (t.hash k).toNat := ⟨hc.1, rfl⟩
        rw [if_pos hs]
        rw [bucketFind_eq_none_iff]
        exact bucketRemoveFirst_not_mem _ k (hnodup _ hc.2) w hbf
      · intro k' hk'
        rw [hfe k']
        by_cases hs : 0 ≤ Int.tmod k' (t.buckets.length : Int) ∧
            (Int.tmod k' (t.buckets.length : Int)).toNat = (t.hash k).toNat
        · rw [if_pos hs, bucketFind_bucketRemoveFirst_ne _ _ _ hk']
          have hg' : 0 ≤ t.hash k' ∧ (t.hash k').toNat < t.buckets.length := by
            refine ⟨hs.1, ?_⟩
            have h2 : (t.hash k').toNat = (t.hash k).toNat := hs.2
            rw [h2]
            exact hc.2
          have hs2 : (t.hash k').toNat = (t.hash k).toNat := hs.2
          rw [findE_pos t k' hg', hs2]
        · rw [if_neg hs]

/-! ### Lemmas: reachability and operation sequences -/

lemma steps_wf (t u : HashTable) (hwf : WF t) (hs : Steps t u) : WF u := by
  induction hs with
  | refl => exact hwf
  | put t1 t2 k v hsteps hput ih => exact (put_ok_spec t1 k v t2 ih hput).1
  | rem t1 t2 k r hsteps hrem ih => exact (remove_ok_spec t1 k r t2 ih hrem).1

lemma ratioInv_put (t t' : HashTable) (k : Int) (v : String)
    (hwf : WF t) (hinv : RatioInv t) (hok : t.Put k v = .ok t') : RatioInv t' := by
  obtain ⟨hlen, hlf, hone, hcount⟩ := hinv
  obtain ⟨_, hlfeq, _, hnum, hcap, hiff⟩ := put_ok_spec t k v t' hwf hok
  have hnum' : (t'.num_keys : ℚ) ≤ (t.num_keys : ℚ) + 1 := by
    by_cases hf : (t.findE k).isSome = true
    · rw [hnum, if_pos hf]
      linarith
    · rw [hnum, if_neg hf]
      push_cast
      linarith
  have hlenQ : (0 : ℚ) < (t.buckets.length : ℚ) := by exact_mod_cast hlen
  rcases hcap with hsame | hdouble
  · have hnr := not_le.mp (hiff.mp hsame)
    refine ⟨by rw [hsame]; exact hlen, by rw [hlfeq]; exact hlf,
      by rw [hsame, hlfeq]; exact hone, ?_⟩
    rw [hsame, hlfeq]
    have hlt := (div_lt_iff₀ hlenQ).mp hnr
    calc (t'.num_keys : ℚ) < t.load_factor * (t.buckets.length : ℚ) := hlt
      _ = (t.buckets.length : ℚ) * t.load_factor := mul_comm _ _
  · refine ⟨by rw [hdouble]; omega, by rw [hlfeq]; exact hlf, ?_, ?_⟩
    · rw [hdouble, hlfeq]
      push_cast
      nlinarith [hone, hlf]
    · rw [hdouble, hlfeq]
      push_cast
      nlinarith [hcount, hnum', hone]

lemma ratioInv_remove (t t' : HashTable) (k : Int) (r : Option String)
    (hinv : RatioInv t) (hok : t.Remove k = .ok (r, t')) : RatioInv t' := by
  obtain ⟨hlen, hlf, hone, hcount⟩ := hinv
  obtain ⟨hlen', hlfeq, hnum, _⟩ := remove_frame t k r t' hok
  refine ⟨by rw [hlen']; exact hlen, by rw [hlfeq]; exact hlf,
    by rw [hlen', hlfeq]; exact hone, ?_⟩
  rw [hlen', hlfeq]
  rcases hnum with h | h
  · rw [h]
    exact hcount
  · rw [h]
    push_cast
    linarith [hcount]

lemma steps_wf_ratio (t u : HashTable) (h : WF t ∧ RatioInv t) (hs : Steps t u) :
    WF u ∧ RatioInv u := by
  induction hs with
  | refl => exact h
  | put t1 t2 k v hsteps hput ih =>
    exact ⟨(put_ok_spec t1 k v t2 ih.1 hput).1, ratioInv_put t1 t2 k v ih.1 ih.2 hput⟩
  | rem t1 t2 k r hsteps hrem ih =>
    exact ⟨(remove_ok_spec t1 k r t2 ih.1 hrem).1, ratioInv_remove t1 t2 k r ih.2 hrem⟩

lemma runPuts_spec : ∀ (ps : List (Int × String)) (t t' : HashTable),
    WF t → (ps.map Prod.fst).Nodup → (∀ p ∈ ps, t.findE p.1 = none) →
    runPuts t ps = .ok t' →
    WF t' ∧ t'.load_factor = t.load_factor ∧
    t'.num_keys = t.num_keys + (ps.length : Int) ∧
    (∀ p ∈ ps, t'.findE p.1 = some p.2) ∧
    (∀ k, (∀ p ∈ ps, p.1 ≠ k) → t'.findE k = t.findE k) ∧
    t.buckets.length ≤ t'.buckets.length ∧
    (∃ c : Nat, t'.buckets.length = t.buckets.length * 2 ^ c) := by
  intro ps
  induction ps with
  | nil =>
    intro t t' hwf hnd hfresh hrun
    simp only [runPuts] at hrun
    have ht := Except.ok.inj hrun
    subst ht
    refine ⟨hwf, rfl, by simp, ?_, fun k _ => rfl, le_refl _,
      ⟨0, by rw [pow_zero, Nat.mul_one]⟩⟩
    intro p hp
    exact absurd hp (List.not_mem_nil p)
  | cons p rest ih =>
    intro t t' hwf hnd hfresh hrun
    obtain ⟨pk, pv⟩ := p
    simp only [runPuts] at hrun
    cases hput : t.Put pk pv with
    | error e =>
      rw [hput] at hrun
      exact Except.noConfusion hrun
    | ok t1 =>
      rw [hput] at hrun
      obtain ⟨hwf1, hlf1, hfind1, hnum1, hcap1, _⟩ := put_ok_spec t pk pv t1 hwf hput
      rw [List.map_cons, List.nodup_cons] at hnd
      have hfreshk : t.findE pk = none := hfresh (pk, pv) (List.mem_cons_self _ _)
      have hnum1' : t1.num_keys = t.num_keys + 1 := by
        rw [hnum1, hfreshk]
        rfl
      have hfresh1 : ∀ q ∈ rest, t1.findE q.1 = none := by
        intro q hq
        rw [hfind1 q.1,
          if_neg (fun hqk => hnd.1 (by rw [← hqk]; exact List.mem_map.mpr ⟨q, hq, rfl⟩))]
        exact hfresh q (List.mem_cons_of_mem _ hq)
      obtain ⟨hwfr, hlfr, hnumr, hfindr, hframer, hlenr, hcr⟩ :=
        ih t1 t' hwf1 hnd.2 hfresh1 hrun
      refine ⟨hwfr, by rw [hlfr, hlf1], ?_, ?_, ?_, ?_, ?_⟩
      · rw [hnumr, hnum1', List.length_cons]
        push_cast
        ring
      · intro q hq
        rcases List.mem_cons.mp hq with h1 | h2
        · subst h1
          show t'.findE pk = some pv
          rw [hframer pk (fun q2 hq2 hq2k =>
              hnd.1 (by rw [← hq2k]; exact List.mem_map.mpr ⟨q2, hq2, rfl⟩)),
            hfind1, if_pos rfl]
        · exact hfindr q h2
      · intro k hk
        rw [hframer k (fun q hq => hk q (List.mem_cons_of_mem _ hq)), hfind1 k,
          if_neg (fun hkk => hk (pk, pv) (List.mem_cons_self _ _) hkk.symm)]
      · refine le_trans ?_ hlenr
        rcases hcap1 with h | h
        · rw [h]
        · rw [h]
          omega
      · obtain ⟨c, hc⟩ := hcr
        rcases hcap1 with h | h
        · exact ⟨c, by rw [hc, h]⟩
        · exact ⟨c + 1, by rw [hc, h]; ring⟩

lemma runPuts_growInv : ∀ (ps : List (Int × String)) (n0 : Nat) (lf : ℚ)
    (t t' : HashTable),
    WF t → GrowInv n0 lf t → runPuts t ps = .ok t' → GrowInv n0 lf t' := by
  intro ps
  induction ps with
  | nil =>
    intro n0 lf t t' hwf hg hrun
    simp only [runPuts] at hrun
    rw [← Except.ok.inj hrun]
    exact hg
  | cons p rest ih =>
    intro n0 lf t t' hwf hg hrun
    obtain ⟨pk, pv⟩ := p
    simp only [runPuts] at hrun
    cases hput : t.Put pk pv with
    | error e =>
      rw [hput] at hrun
      exact Except.noConfusion hrun
    | ok t1 =>
      rw [hput] at hrun
      obtain ⟨hwf1, hlf1, _, hnum1, hcap1, hiff1⟩ := put_ok_spec t pk pv t1 hwf hput
      obtain ⟨hle, ⟨c, hc⟩, hsmall, hlfeq⟩ := hg
      refine ih n0 lf t1 t' hwf1 ?_ hrun
      rcases hcap1 with h | h
      · refine ⟨by rw [h]; exact hle, ⟨c, by rw [h]; exact hc⟩, ?_,
          by rw [hlf1]; exact hlfeq⟩
        intro hlen1
        have hnr := not_le.mp (hiff1.mp h)
        have hlenQ : (0 : ℚ) < (t.buckets.length : ℚ) := by exact_mod_cast hwf.1
        have hlt := (div_lt_iff₀ hlenQ).mp hnr
        have hteq : t.buckets.length = n0 := by rw [← h]; exact hlen1
        rw [← hteq, ← hlfeq]
        calc (t1.num_keys : ℚ) < t.load_factor * (t.buckets.length : ℚ) := hlt
          _ = (t.buckets.length : ℚ) * t.load_factor := mul_comm _ _
      · have hl0 : 0 < t.buckets.length := hwf.1
        refine ⟨by rw [h]; omega, ⟨c + 1, by rw [h, hc]; ring⟩, ?_,
          by rw [hlf1]; exact hlfeq⟩
        intro hlen1
        exfalso
        rw [h] at hlen1
        omega

lemma runPuts_noresize : ∀ (ps : List (Int × String)) (t t' : HashTable),
    WF t → (ps.map Prod.fst).Nodup → (∀ p ∈ ps, t.findE p.1 = none) →
    ((t.num_keys : ℚ) + (ps.length : ℚ) < (t.buckets.length : ℚ) * t.load_factor) →
    runPuts t ps = .ok t' → t'.buckets.length = t.buckets.length := by
  intro ps
  induction ps with
  | nil =>
    intro t t' hwf hnd hfresh hsmall hrun
    simp only [runPuts] at hrun
    rw [← Except.ok.inj hrun]
  | cons p rest ih =>
    intro t t' hwf hnd hfresh hsmall hrun
    obtain ⟨pk, pv⟩ := p
    simp only [runPuts] at hrun
    cases hput : t.Put pk pv with
    | error e =>
      rw [hput] at hrun
      exact Except.noConfusion hrun
    | ok t1 =>
      rw [hput] at hrun
      obtain ⟨hwf1, hlf1, hfind1, hnum1, hcap1, hiff1⟩ := put_ok_spec t pk pv t1 hwf hput
      rw [List.map_cons, List.nodup_cons] at hnd
      have hfreshk : t.findE pk = none := hfresh (pk, pv) (List.mem_cons_self _ _)
      have hnum1' : t1.num_keys = t.num_keys + 1 := by
        rw [hnum1, hfreshk]
        rfl
      rw [List.length_cons] at hsmall
      push_cast at hsmall
      have hlenQ : (0 : ℚ) < (t.buckets.length : ℚ) := by exact_mod_cast hwf.1
      have hlen1 : t1.buckets.length = t.buckets.length := by
        refine hiff1.mpr (not_le.mpr ?_)
        rw [(div_lt_iff₀ hlenQ)]
        rw [hnum1']
        push_cast
        nlinarith [hsmall]
      have hfresh1 : ∀ q ∈ rest, t1.findE q.1 = none := by
        intro q hq
        rw [hfind1 q.1,
          if_neg (fun hqk => hnd.1 (by rw [← hqk]; exact List.mem_map.mpr ⟨q, hq, rfl⟩))]
        exact hfresh q (List.mem_cons_of_mem _ hq)
      have hrest := ih t1 t' hwf1 hnd.2 hfresh1 ?_ hrun
      · rw [hrest, hlen1]
      · rw [hnum1', hlen1, hlf1]
        push_cast
        nlinarith [hsmall]

lemma remove_total_of_guard (t : HashTable) (k : Int)
    (hg : 0 ≤ t.hash k ∧ (t.hash k).toNat < t.buckets.length) :
    ∃ res, t.Remove k = .ok res := by
  simp only [HashTable.Remove]
  rw [dif_pos hg]
  by_cases hfound : (bucketFind (t.buckets.get ⟨(t.hash k).toNat, hg.2⟩) k).isSome = true
  · rw [if_pos hfound]
    rcases hbrf : bucketRemoveFirst (t.buckets.get ⟨(t.hash k).toNat, hg.2⟩) k with ⟨o, b2⟩
    cases o with
    | none => exact ⟨_, rfl⟩
    | some w => exact ⟨_, rfl⟩
  · rw [if_neg hfound]
    exact ⟨_, rfl⟩

lemma resizeStep_noresize (t1 : HashTable)
    (h : (t1.num_keys : ℚ) / (t1.buckets.length : ℚ) < t1.load_factor) :
    resizeStep t1 = .ok t1 := by
  simp only [resizeStep]
  rw [if_neg (not_le.mpr h)]

/-! ### The claims -/

/-- C6: construction succeeds with an empty table of the requested capacity
exactly when `capacity > 0` and `loadFactor ∈ (0, 1]`; `capacity ≤ 0` raises
the invalid-capacity error (checked first), and an out-of-range load factor
raises the invalid-load-factor error. -/
theorem C6_construction (cap : Int) (lf : ℚ) :
    (0 < cap → 0 < lf → lf ≤ 1 →
      ∃ t, HashTable.New cap lf = .ok t ∧ t.isEmpty = true ∧
        t.capacity = cap ∧ t.size = 0 ∧ t.load_factor = lf) ∧
    (cap ≤ 0 → HashTable.New cap lf = .error .invalidCapacity) ∧
    (0 < cap → (lf ≤ 0 ∨ 1 < lf) → HashTable.New cap lf = .error .invalidLoadFactor) := by
  refine ⟨?_, ?_, ?_⟩
  · intro hcap hlf0 hlf1
    refine ⟨({ num_keys := 0, load_factor := lf,
               buckets := List.replicate cap.toNat [] } : HashTable),
      ?_, rfl, ?_, rfl, rfl⟩
    · simp only [HashTable.New]
      rw [if_neg (not_le.mpr hcap), if_neg (by push_neg; exact ⟨hlf0, hlf1⟩)]
    · show ((List.replicate cap.toNat ([] : Bucket)).length : Int) = cap
      rw [List.length_replicate]
      omega
  · intro hcap
    simp only [HashTable.New]
    rw [if_pos hcap]
  · intro hcap hbad
    simp only [HashTable.New]
    rw [if_neg (not_le.mpr hcap), if_pos hbad]

/-- Witness for C6 at concrete inputs: `New(5, 3/4)` succeeds empty,
`New(-1, 3/4)` fails with invalid capacity, `New(5, 2)` fails with invalid
load factor. -/
theorem C6_witness :
    (∃ t, HashTable.New 5 (3/4) = .ok t ∧ t.isEmpty = true ∧ t.capacity = 5 ∧
      t.size = 0 ∧ t.load_factor = 3/4) ∧
    HashTable.New (-1) (3/4) = .error .invalidCapacity ∧
    HashTable.New 5 2 = .error .invalidLoadFactor :=
  ⟨(C6_construction 5 (3/4)).1 (by norm_num) (by norm_num) (by norm_num),
    (C6_construction (-1) (3/4)).2.1 (by norm_num),
    (C6_construction 5 2).2.2 (by norm_num) (Or.inr (by norm_num))⟩

/-- C8: `ContainsKey` is exactly `Search(key).has_value()` — the equivalence
holds for every table state and key, including the error branch, which both
operations share. -/
theorem C8_contains_search (t : HashTable) (k : Int) :
    t.ContainsKey k = (t.Search k).map Option.isSome := rfl

/-- C10: a completed `Remove(k)` call never changes the capacity, and for
every other key `k' ≠ k` the result of `Search(k')` is unchanged. -/
theorem C10_remove_frame (t : HashTable) (k : Int) (r : Option String) (t' : HashTable)
    (hok : t.Remove k = .ok (r, t')) :
    t'.capacity = t.capacity ∧ ∀ k', k' ≠ k → t'.Search k' = t.Search k' := by
  obtain ⟨hlen, _, _, hsearch⟩ := remove_frame t k r t' hok
  refine ⟨?_, hsearch⟩
  show ((t'.buckets.length : Nat) : Int) = ((t.buckets.length : Nat) : Int)
  rw [hlen]

/-- Witness for C10: removing key 0 from a one-element table keeps the
capacity and leaves the lookup of key 7 unchanged. -/
theorem C10_witness :
    tHalfFull.Remove 0 = .ok (some ("a"), tEmpty2) ∧
    tEmpty2.capacity = tHalfFull.capacity ∧
    tEmpty2.Search 7 = tHalfFull.Search 7 := by
  have hrem : tHalfFull.Remove 0 = .ok (some ("a"), tEmpty2) := by
    with_unfolding_all decide
  have h := C10_remove_frame tHalfFull 0 (some ("a")) tEmpty2 hrem
  exact ⟨hrem, h.1, h.2 7 (by decide)⟩

/-- C7: on every reachable table, removing a present key returns its stored
value, makes `ContainsKey` false afterwards and decrements `size()` by one;
removing an absent key (with a valid bucket index) returns the absent result
and leaves the table unchanged. -/
theorem C7_remove_semantics (cap : Int) (lf : ℚ) (t0 t : HashTable) (k : Int)
    (hnew : HashTable.New cap lf = .ok t0) (hsteps : Steps t0 t) :
    (∀ v, t.Search k = .ok (some v) →
      ∃ t', t.Remove k = .ok (some v, t') ∧ t'.ContainsKey k = .ok false ∧
        t'.size = t.size - 1) ∧
    (t.Search k = .ok none → t.Remove k = .ok (none, t)) := by
  have hwf := steps_wf t0 t (WF_new cap lf t0 hnew) hsteps
  constructor
  · intro v hsv
    obtain ⟨hg, hre⟩ := search_ok_elim t k (some v) hsv
    have hfind : t.findE k = some v := hre.symm
    obtain ⟨⟨r, t2⟩, hrem⟩ := remove_total_of_guard t k hg
    obtain ⟨hwf2, _, hlen2, hnone, hsome⟩ := remove_ok_spec t k r t2 hwf hrem
    cases r with
    | none =>
      obtain ⟨_, hfnone⟩ := hnone rfl
      rw [hfind] at hfnone
      exact Option.noConfusion hfnone
    | some w =>
      obtain ⟨hfw, hfnone2, hnum2, _⟩ := hsome w rfl
      have hvw : w = v := by
        rw [hfind] at hfw
        exact (Option.some.inj hfw).symm
      subst hvw
      refine ⟨t2, hrem, ?_, hnum2⟩
      show (t2.Search k).map Option.isSome = .ok false
      have hg2 : 0 ≤ t2.hash k ∧ (t2.hash k).toNat < t2.buckets.length := by
        rw [hash_congr t t2 k hlen2, hlen2]
        exact hg
      rw [search_pos t2 k hg2, hfnone2]
      rfl
  · intro hsn
    obtain ⟨hg, hre⟩ := search_ok_elim t k none hsn
    obtain ⟨⟨r, t2⟩, hrem⟩ := remove_total_of_guard t k hg
    obtain ⟨_, _, _, hnone, hsome⟩ := remove_ok_spec t k r t2 hwf hrem
    cases r with
    | some w =>
      obtain ⟨hfw, _⟩ := hsome w rfl
      rw [← hre] at hfw
      exact Option.noConfusion hfw
    | none =>
      obtain ⟨hteq, _⟩ := hnone rfl
      rw [hrem, hteq]

/-- Witness for C7, the spec scenario: on the table built by `New(2)` with the
default load factor, `Remove(5)` returns the absent result with the size still
zero; and on a one-element reachable table, removing the present key 0
returns its value, makes `ContainsKey(0)` false and drops the size to 0. -/
theorem C7_witness :
    HashTable.New 2 kDefaultLoadFactor = .ok tEmpty2 ∧
    tEmpty2.Remove 5 = .ok (none, tEmpty2) ∧
    tEmpty2.size = 0 ∧
    (∃ t', tHalfFull.Remove 0 = .ok (some ("a"), t') ∧
      t'.ContainsKey 0 = .ok false ∧ t'.size = tHalfFull.size - 1) := by
  have hnew : HashTable.New 2 kDefaultLoadFactor = .ok tEmpty2 := by
    with_unfolding_all decide
  have hput : tEmpty2.Put 0 ("a") = .ok tHalfFull := by
    with_unfolding_all decide
  refine ⟨hnew, ?_, by decide, ?_⟩
  · exact (C7_remove_semantics 2 kDefaultLoadFactor tEmpty2 tEmpty2 5 hnew
      (Steps.refl tEmpty2)).2 (by with_unfolding_all decide)
  · exact (C7_remove_semantics 2 kDefaultLoadFactor tEmpty2 tHalfFull 0 hnew
      (Steps.put tEmpty2 tEmpty2 tHalfFull 0 ("a") (Steps.refl tEmpty2) hput)).1
      ("a") (by with_unfolding_all decide)

/-- C9: every reachable table is structurally well formed: `num_keys_` equals
the total number of stored pairs, keys inside each bucket are distinct, every
stored pair lives in the bucket its key hashes to modulo the current
capacity, and consequently a key occurs in at most one bucket. -/
theorem C9_invariants (cap : Int) (lf : ℚ) (t0 t : HashTable)
    (hnew : HashTable.New cap lf = .ok t0) (hsteps : Steps t0 t) :
    t.num_keys = ((t.buckets.map List.length).sum : Int) ∧
    (∀ i, i < t.buckets.length → ((t.buckets.getD i []).map Prod.fst).Nodup) ∧
    (∀ i, i < t.buckets.length → ∀ p ∈ t.buckets.getD i [],
      Int.tmod p.1 (t.buckets.length : Int) = (i : Int)) ∧
    (∀ i j, i < t.buckets.length → j < t.buckets.length →
      ∀ p q, p ∈ t.buckets.getD i [] → q ∈ t.buckets.getD j [] →
        p.1 = q.1 → i = j) := by
  have hwf := steps_wf t0 t (WF_new cap lf t0 hnew) hsteps
  obtain ⟨hlen, hplaced, hnodup, hcount⟩ := hwf
  refine ⟨hcount, hnodup, ?_, ?_⟩
  · intro i hi p hp
    have := hplaced i hi p hp
    omega
  · intro i j hi hj p q hp hq hpq
    have h1 := hplaced i hi p hp
    have h2 := hplaced j hj q hq
    rw [hpq] at h1
    omega

/-- Witness for C9 on a concrete reachable table with one stored pair. -/
theorem C9_witness :
    HashTable.New 2 kDefaultLoadFactor = .ok tEmpty2 ∧
    tEmpty2.Put 0 ("a") = .ok tHalfFull ∧
    tHalfFull.num_keys = ((tHalfFull.buckets.map List.length).sum : Int) ∧
    ((tHalfFull.buckets.getD 0 []).map Prod.fst).Nodup ∧
    (∀ p ∈ tHalfFull.buckets.getD 0 [],
      Int.tmod p.1 (tHalfFull.buckets.length : Int) = ((0 : Nat) : Int)) := by
  have hnew : HashTable.New 2 kDefaultLoadFactor = .ok tEmpty2 := by
    with_unfolding_all decide
  have hput : tEmpty2.Put 0 ("a") = .ok tHalfFull := by
    with_unfolding_all decide
  have h := C9_invariants 2 kDefaultLoadFactor tEmpty2 tHalfFull hnew
    (Steps.put tEmpty2 tEmpty2 tHalfFull 0 ("a") (Steps.refl tEmpty2) hput)
  exact ⟨hnew, hput, h.1, h.2.1 0 (by decide), h.2.2.1 0 (by decide)⟩

/-- C2 (counterexample): the claim says a `Put` on an already-stored key
performs no resize check, so the capacity cannot change.  False: the resize
check at the end of `Put` runs on both branches.  In the reachable state
`tOver` — built by `New(1, 1/2)` then `Put(0, "a")`, whose single doubling
left `count / capacity = 1/2 ≥ 1/2` — the pure overwrite `Put(0, "b")`
triggers another resize and the capacity changes from 2 to 4. -/
theorem C2_counterexample :
    (HashTable.New 1 (1/2)).map (fun t => t.Put 0 ("a")) = .ok (.ok tOver) ∧
    tOver.ContainsKey 0 = .ok true ∧
    tOver.capacity = 2 ∧
    (tOver.Put 0 ("b")).map HashTable.capacity = .ok 4 := by
  refine ⟨?_, ?_, ?_, ?_⟩ <;> with_unfolding_all decide

/-- C2 (amended): a `Put` on a stored key overwrites the value in place and
leaves `size()` unchanged; the trailing resize check still runs, but whenever
`count / capacity < loadFactor` holds (which C3's amended invariant gives for
every configuration with `capacity * loadFactor ≥ 1`) it does not fire, so
`capacity()` is unchanged as well. -/
theorem C2_amended (t : HashTable) (k : Int) (v w : String)
    (hfound : t.Search k = .ok (some w))
    (hratio : (t.num_keys : ℚ) / (t.buckets.length : ℚ) < t.load_factor) :
    ∃ t', t.Put k v = .ok t' ∧ t'.size = t.size ∧ t'.capacity = t.capacity ∧
      t'.Search k = .ok (some v) := by
  obtain ⟨hg, hre⟩ := search_ok_elim t k (some w) hfound
  have hf : t.findE k = some w := hre.symm
  have hbf : bucketFind (t.buckets.getD (t.hash k).toNat []) k = some w := by
    rw [← findE_pos t k hg]
    exact hf
  simp only [HashTable.Put]
  rw [dif_pos hg, get_eq_getD t.buckets (t.hash k).toNat hg.2]
  rw [if_pos (by rw [hbf]; rfl)]
  have hLset : (t.buckets.set (t.hash k).toNat
      (bucketReplace (t.buckets.getD (t.hash k).toNat []) k v)).length
      = t.buckets.length := List.length_set _ _ _
  have hnr : resizeStep
      ({ t with
         buckets := t.buckets.set (t.hash k).toNat
                      (bucketReplace (t.buckets.getD (t.hash k).toNat []) k v) } :
        HashTable) =
      .ok
      ({ t with
         buckets := t.buckets.set (t.hash k).toNat
                      (bucketReplace (t.buckets.getD (t.hash k).toNat []) k v) } :
        HashTable) := by
    apply resizeStep_noresize
    show (t.num_keys : ℚ) / (((t.buckets.set (t.hash k).toNat
      (bucketReplace (t.buckets.getD (t.hash k).toNat []) k v)).length : Nat) : ℚ)
      < t.load_factor
    rw [hLset]
    exact hratio
  rw [hnr]
  refine ⟨_, rfl, rfl, ?_, ?_⟩
  · show (((t.buckets.set (t.hash k).toNat
      (bucketReplace (t.buckets.getD (t.hash k).toNat []) k v)).length : Nat) : Int)
      = ((t.buckets.length : Nat) : Int)
    rw [hLset]
  · have hg2 : 0 ≤ ({ t with
          buckets := t.buckets.set (t.hash k).toNat
                       (bucketReplace (t.buckets.getD (t.hash k).toNat []) k v) } :
          HashTable).hash k ∧
        (({ t with
            buckets := t.buckets.set (t.hash k).toNat
                         (bucketReplace (t.buckets.getD (t.hash k).toNat []) k v) } :
          HashTable).hash k).toNat
          < ({ t with
               buckets := t.buckets.set (t.hash k).toNat
                            (bucketReplace (t.buckets.getD (t.hash k).toNat []) k v) } :
              HashTable).buckets.length := by
      rw [hash_congr t _ k hLset]
      show _ ∧ (t.hash k).toNat < (t.buckets.set (t.hash k).toNat
        (bucketReplace (t.buckets.getD (t.hash k).toNat []) k v)).length
      rw [hLset]
      exact hg
    rw [search_pos _ k hg2]
    rw [findE_setBucket t (t.hash k).toNat
      (bucketReplace (t.buckets.getD (t.hash k).toNat []) k v) t.num_keys k hg.2]
    rw [if_pos (show 0 ≤ Int.tmod k (t.buckets.length : Int) ∧
      (Int.tmod k (t.buckets.length : Int)).toNat = (t.hash k).toNat from ⟨hg.1, rfl⟩)]
    rw [bucketFind_bucketReplace_self _ _ _ (by rw [hbf]; rfl)]

/-- Witness for C2's amended statement: overwriting key 0 on a half-full table
with ratio `1/2 < 3/4` keeps size and capacity and updates the value. -/
theorem C2_witness :
    tHalfFull.Search 0 = .ok (some ("a")) ∧
    (tHalfFull.num_keys : ℚ) / (tHalfFull.buckets.length : ℚ) < tHalfFull.load_factor ∧
    (∃ t', tHalfFull.Put 0 ("b") = .ok t' ∧ t'.size = tHalfFull.size ∧
      t'.capacity = tHalfFull.capacity ∧ t'.Search 0 = .ok (some ("b"))) := by
  have h1 : tHalfFull.Search 0 = .ok (some ("a")) := by with_unfolding_all decide
  have h2 : (tHalfFull.num_keys : ℚ) / (tHalfFull.buckets.length : ℚ)
      < tHalfFull.load_factor := by with_unfolding_all decide
  exact ⟨h1, h2, C2_amended tHalfFull 0 ("b") ("a") h1 h2⟩

/-- C3 (counterexample): after `New(1, 1/2)` — an admissible configuration —
the very first insert of a new key completes with
`count / capacity = 1/2 ≥ 1/2 = loadFactor`: the resize doubles the capacity
only once per `Put`, which cannot restore the invariant when
`capacity * loadFactor < 1`. -/
theorem C3_counterexample :
    HashTable.New 1 (1/2) = .ok tEmpty1 ∧
    tEmpty1.ContainsKey 0 = .ok false ∧
    tEmpty1.Put 0 ("a") = .ok tOver ∧
    tOver.num_keys = 1 ∧
    ¬ ((tOver.num_keys : ℚ) / (tOver.buckets.length : ℚ) < tOver.load_factor) := by
  refine ⟨?_, ?_, ?_, ?_, ?_⟩ <;> with_unfolding_all decide

/-- C3 (amended): for every table constructed with
`capacity * loadFactor ≥ 1`, the invariant `count / capacity < loadFactor`
holds immediately after every completed `Put` (in particular after every
insert of a new key) in every reachable state. -/
theorem C3_amended (cap : Int) (lf : ℚ) (t0 t t' : HashTable) (k : Int) (v : String)
    (hnew : HashTable.New cap lf = .ok t0)
    (hconf : 1 ≤ (cap : ℚ) * lf)
    (hsteps : Steps t0 t)
    (hput : t.Put k v = .ok t') :
    (t'.num_keys : ℚ) / (t'.buckets.length : ℚ) < t'.load_factor := by
  obtain ⟨hcap, hlf0, hlf1, ht0⟩ := new_ok_elim cap lf t0 hnew
  have hwf0 := WF_new cap lf t0 hnew
  have hcast : ((cap.toNat : Nat) : ℚ) = (cap : ℚ) := by
    rw [show ((cap.toNat : Nat) : ℚ) = (((cap.toNat : Nat) : Int) : ℚ) by push_cast; ring]
    rw [Int.toNat_of_nonneg (le_of_lt hcap)]
  have hinv0 : RatioInv t0 := by
    subst ht0
    refine ⟨?_, hlf0, ?_, ?_⟩
    · show 0 < (List.replicate cap.toNat ([] : Bucket)).length
      rw [List.length_replicate]
      omega
    · show 1 ≤ ((List.replicate cap.toNat ([] : Bucket)).length : ℚ) * lf
      rw [List.length_replicate, hcast]
      exact hconf
    · show ((0 : Int) : ℚ) < ((List.replicate cap.toNat ([] : Bucket)).length : ℚ) * lf
      rw [List.length_replicate, hcast]
      push_cast
      nlinarith [hconf]
  obtain ⟨hwf, hinv⟩ := steps_wf_ratio t0 t ⟨hwf0, hinv0⟩ hsteps
  obtain ⟨hlen', hlf', hone', hcount'⟩ := ratioInv_put t t' k v hwf hinv hput
  have hlenQ : (0 : ℚ) < (t'.buckets.length : ℚ) := by exact_mod_cast hlen'
  rw [div_lt_iff₀ hlenQ]
  calc (t'.num_keys : ℚ) < (t'.buckets.length : ℚ) * t'.load_factor := hcount'
    _ = t'.load_factor * (t'.buckets.length : ℚ) := mul_comm _ _

/-- Witness for C3's amended statement: `New(2, 3/4)` has
`capacity * loadFactor = 3/2 ≥ 1`, and after inserting the new key 0 the
ratio is `1/2 < 3/4`. -/
theorem C3_witness :
    HashTable.New 2 (3/4) = .ok tEmpty2 ∧
    1 ≤ ((2 : Int) : ℚ) * (3/4) ∧
    tEmpty2.Put 0 ("a") = .ok tHalfFull ∧
    (tHalfFull.num_keys : ℚ) / (tHalfFull.buckets.length : ℚ)
      < tHalfFull.load_factor := by
  have hnew : HashTable.New 2 (3/4) = .ok tEmpty2 := by with_unfolding_all decide
  have hput : tEmpty2.Put 0 ("a") = .ok tHalfFull := by with_unfolding_all decide
  refine ⟨hnew, by norm_num, hput, ?_⟩
  exact C3_amended 2 (3/4) tEmpty2 tEmpty2 tHalfFull 0 ("a") hnew (by norm_num)
    (Steps.refl tEmpty2) hput

lemma mem_of_mem_set (bs : List Bucket) (i : Nat) (b' : Bucket) (s : Bucket)
    (h : s ∈ bs.set i b') : s ∈ bs ∨ s = b' := by
  induction bs generalizing i with
  | nil => cases h
  | cons b0 rest ih =>
    cases i with
    | zero =>
      rcases List.mem_cons.mp h with h1 | h2
      · exact Or.inr h1
      · exact Or.inl (List.mem_cons_of_mem _ h2)
    | succ n =>
      rcases List.mem_cons.mp h with h1 | h2
      · exact Or.inl (by rw [h1]; exact List.mem_cons_self _ _)
      · rcases ih n h2 with h3 | h3
        · exact Or.inl (List.mem_cons_of_mem _ h3)
        · exact Or.inr h3

lemma getD_mem (bs : List Bucket) (i : Nat) (h : i < bs.length) :
    bs.getD i [] ∈ bs := by
  rw [← get_eq_getD bs i h]
  exact List.get_mem bs i h

lemma keysNonneg_iff (t : HashTable) :
    KeysNonneg t ↔ ∀ p ∈ t.buckets.flatten, 0 ≤ p.1 := by
  constructor
  · intro h p hp
    obtain ⟨s, hs, hps⟩ := List.mem_flatten.mp hp
    exact h s hs p hps
  · intro h b hb p hp
    exact h p (List.mem_flatten.mpr ⟨b, hb, hp⟩)

lemma mem_flatten_appendAt (bs : List Bucket) (i : Nat) (p q : Int × String)
    (h : q ∈ (appendAt bs i p).flatten) : q ∈ bs.flatten ∨ q = p := by
  induction bs generalizing i with
  | nil => cases h
  | cons b rest ih =>
    cases i with
    | zero =>
      rw [show appendAt (b :: rest) 0 p = (b ++ [p]) :: rest from rfl,
        List.flatten_cons] at h
      rcases List.mem_append.mp h with h1 | h2
      · rcases List.mem_append.mp h1 with h3 | h4
        · exact Or.inl (by rw [List.flatten_cons]; exact List.mem_append.mpr (Or.inl h3))
        · exact Or.inr (List.mem_singleton.mp h4)
      · exact Or.inl (by rw [List.flatten_cons]; exact List.mem_append.mpr (Or.inr h2))
    | succ n =>
      rw [show appendAt (b :: rest) (n + 1) p = b :: appendAt rest n p from rfl,
        List.flatten_cons] at h
      rcases List.mem_append.mp h with h1 | h2
      · exact Or.inl (by rw [List.flatten_cons]; exact List.mem_append.mpr (Or.inl h1))
      · rcases ih n h2 with h3 | h3
        · exact Or.inl (by rw [List.flatten_cons]; exact List.mem_append.mpr (Or.inr h3))
        · exact Or.inr h3

lemma rehashAll_mem : ∀ (ps : List (Int × String)) (acc nb : List Bucket),
    rehashAll acc ps = some nb → ∀ q ∈ nb.flatten, q ∈ acc.flatten ∨ q ∈ ps := by
  intro ps
  induction ps with
  | nil =>
    intro acc nb h q hq
    rw [← Option.some.inj h] at hq
    exact Or.inl hq
  | cons p rest ih =>
    intro acc nb h q hq
    simp only [rehashAll] at h
    split at h
    case isTrue hcond =>
      rcases ih _ nb h q hq with h1 | h2
      · rcases mem_flatten_appendAt acc _ p q h1 with h3 | h3
        · exact Or.inl h3
        · exact Or.inr (by rw [h3]; exact List.mem_cons_self _ _)
      · exact Or.inr (List.mem_cons_of_mem _ h2)
    case isFalse => exact Option.noConfusion h

lemma flatten_replicate_nil (n : Nat) (q : Int × String)
    (h : q ∈ (List.replicate n ([] : Bucket)).flatten) : False := by
  obtain ⟨s, hs, hqs⟩ := List.mem_flatten.mp h
  rw [List.eq_of_mem_replicate hs] at hqs
  cases hqs

lemma resizeStep_total (t1 : HashTable)
    (hlen : 0 < t1.buckets.length)
    (hnn : ∀ p ∈ t1.buckets.flatten, 0 ≤ p.1) :
    ∃ t', resizeStep t1 = .ok t' ∧
      (∀ q ∈ t'.buckets.flatten, q ∈ t1.buckets.flatten) ∧
      t1.buckets.length ≤ t'.buckets.length := by
  simp only [resizeStep]
  split
  · obtain ⟨nb, hnb⟩ := rehashAll_total t1.buckets.flatten
      (List.replicate (t1.buckets.length * kGrowthCoefficient) [])
      (by rw [List.length_replicate]
          show 0 < t1.buckets.length * 2
          omega) hnn
    rw [hnb]
    refine ⟨_, rfl, ?_, ?_⟩
    · intro q hq
      rcases rehashAll_mem _ _ nb hnb q hq with h1 | h2
      · exact absurd h1 (fun hh => flatten_replicate_nil _ q hh)
      · exact h2
    · show t1.buckets.length ≤ nb.length
      rw [rehashAll_length _ _ _ hnb, List.length_replicate]
      show t1.buckets.length ≤ t1.buckets.length * 2
      omega
  · exact ⟨t1, rfl, fun q hq => hq, le_refl _⟩

lemma put_total_nonneg (t : HashTable) (k : Int) (v : String)
    (hlen : 0 < t.buckets.length) (hnn : KeysNonneg t) (hk : 0 ≤ k) :
    ∃ t', t.Put k v = .ok t' ∧ KeysNonneg t' ∧ 0 < t'.buckets.length := by
  have hg := hash_guard_of_nonneg t k hlen hk
  simp only [HashTable.Put]
  rw [dif_pos hg, get_eq_getD t.buckets (t.hash k).toNat hg.2]
  by_cases hfound : (bucketFind (t.buckets.getD (t.hash k).toNat []) k).isSome = true
  · rw [if_pos hfound]
    have hnn1 : ∀ p ∈ (t.buckets.set (t.hash k).toNat
        (bucketReplace (t.buckets.getD (t.hash k).toNat []) k v)).flatten, 0 ≤ p.1 := by
      intro p hp
      obtain ⟨s, hs, hps⟩ := List.mem_flatten.mp hp
      rcases mem_of_mem_set _ _ _ s hs with h1 | h1
      · exact hnn s h1 p hps
      · rw [h1] at hps
        obtain ⟨q, hq, hpq⟩ := mem_bucketReplace _ _ _ p hps
        rw [hpq]
        exact hnn _ (getD_mem t.buckets _ hg.2) q hq
    obtain ⟨t', ht', hmem, hle⟩ := resizeStep_total
      { t with buckets := t.buckets.set (t.hash k).toNat
                            (bucketReplace (t.buckets.getD (t.hash k).toNat []) k v) }
      (by show 0 < (t.buckets.set (t.hash k).toNat
            (bucketReplace (t.buckets.getD (t.hash k).toNat []) k v)).length
          rw [List.length_set]
          exact hlen)
      hnn1
    refine ⟨t', ht', ?_, ?_⟩
    · rw [keysNonneg_iff]
      intro p hp
      exact hnn1 p (hmem p hp)
    · refine lt_of_lt_of_le ?_ hle
      show 0 < (t.buckets.set (t.hash k).toNat
        (bucketReplace (t.buckets.getD (t.hash k).toNat []) k v)).length
      rw [List.length_set]
      exact hlen
  · rw [if_neg hfound]
    have hnn1 : ∀ p ∈ (t.buckets.set (t.hash k).toNat
        ((t.buckets.getD (t.hash k).toNat []) ++ [(k, v)])).flatten, 0 ≤ p.1 := by
      intro p hp
      obtain ⟨s, hs, hps⟩ := List.mem_flatten.mp hp
      rcases mem_of_mem_set _ _ _ s hs with h1 | h1
      · exact hnn s h1 p hps
      · rw [h1] at hps
        rcases List.mem_append.mp hps with h2 | h2
        · exact hnn _ (getD_mem t.buckets _ hg.2) p h2
        · rw [List.mem_singleton.mp h2]
          exact hk
    obtain ⟨t', ht', hmem, hle⟩ := resizeStep_total
      { t with buckets := t.buckets.set (t.hash k).toNat
                            ((t.buckets.getD (t.hash k).toNat []) ++ [(k, v)]),
               num_keys := t.num_keys + 1 }
      (by show 0 < (t.buckets.set (t.hash k).toNat
            ((t.buckets.getD (t.hash k).toNat []) ++ [(k, v)])).length
          rw [List.length_set]
          exact hlen)
      hnn1
    refine ⟨t', ht', ?_, ?_⟩
    · rw [keysNonneg_iff]
      intro p hp
      exact hnn1 p (hmem p hp)
    · refine lt_of_lt_of_le ?_ hle
      show 0 < (t.buckets.set (t.hash k).toNat
        ((t.buckets.getD (t.hash k).toNat []) ++ [(k, v)])).length
      rw [List.length_set]
      exact hlen

lemma remove_total_nonneg (t : HashTable) (k : Int)
    (hlen : 0 < t.buckets.length) (hnn : KeysNonneg t) (hk : 0 ≤ k) :
    ∃ r t', t.Remove k = .ok (r, t') ∧ KeysNonneg t' ∧ 0 < t'.buckets.length := by
  have hg := hash_guard_of_nonneg t k hlen hk
  obtain ⟨⟨r, t'⟩, hok⟩ := remove_total_of_guard t k hg
  obtain ⟨_, hcase⟩ := remove_ok_elim t k r t' hok
  have hlen' : 0 < t'.buckets.length := by
    rw [(remove_frame t k r t' hok).1]
    exact hlen
  refine ⟨r, t', hok, ?_, hlen'⟩
  rcases hcase with ⟨_, ht, _⟩ | ⟨w, _, _, ht⟩
  · rw [ht]
    exact hnn
  · rw [ht]
    intro s hs p hps
    rcases mem_of_mem_set _ _ _ s hs with h1 | h1
    · exact hnn s h1 p hps
    · rw [h1] at hps
      exact hnn _ (getD_mem t.buckets _ hg.2) p (mem_bucketRemoveFirst _ _ p hps)

/-- C1: the spec says every post-construction operation is total for any key in
the full integer range, including negative keys, and that the bucket-indexing
error branch is unreachable.  This is false: `utils::hash` uses the C++ `%`
operator (truncated remainder), which is negative for negative keys, so
`Search`, `ContainsKey`, `Put` and `Remove` all index the bucket vector out of
bounds for a negative key.  On the freshly constructed table `New(2, 0.75)`
the key `-1` hashes to bucket index `-1` and all four operations hit the
error branch of the embedding. -/
theorem C1_counterexample :
    HashTable.New 2 kDefaultLoadFactor = .ok tEmpty2 ∧
    utilsHash (-1) 2 = -1 ∧
    tEmpty2.Search (-1) = .error () ∧
    tEmpty2.ContainsKey (-1) = .error () ∧
    tEmpty2.Put (-1) ("x") = .error () ∧
    tEmpty2.Remove (-1) = .error () :=
  ⟨by with_unfolding_all decide, by decide, by with_unfolding_all decide,
    by with_unfolding_all decide, by with_unfolding_all decide,
    by with_unfolding_all decide⟩

/-- C1 (amended): restricted to nonnegative keys the claim is true.  For any
table whose bucket array is nonempty and whose stored keys are all
nonnegative, and any key `k ≥ 0`: `Search` and `ContainsKey` succeed, and for
any value `Put` succeeds and `Remove` succeeds, both preserving nonnegativity
of the stored keys and nonemptiness of the bucket array (so totality is
closed under the mutating operations). -/
theorem C1_amended (t : HashTable) (k : Int)
    (hlen : 0 < t.buckets.length) (hnn : KeysNonneg t) (hk : 0 ≤ k) :
    (∃ r, t.Search k = .ok r) ∧
    (∃ b, t.ContainsKey k = .ok b) ∧
    (∀ v, ∃ t', t.Put k v = .ok t' ∧ KeysNonneg t' ∧ 0 < t'.buckets.length) ∧
    (∃ r t', t.Remove k = .ok (r, t') ∧ KeysNonneg t' ∧ 0 < t'.buckets.length) := by
  have hg := hash_guard_of_nonneg t k hlen hk
  refine ⟨⟨t.findE k, search_pos t k hg⟩, ⟨(t.findE k).isSome, ?_⟩, ?_, ?_⟩
  · show (t.Search k).map Option.isSome = _
    rw [search_pos t k hg]
    rfl
  · intro v
    exact put_total_nonneg t k v hlen hnn hk
  · exact remove_total_nonneg t k hlen hnn hk

/-- Witness for C1 (amended) on a concrete table with nonnegative keys. -/
theorem C1_witness :
    0 < tHalfFull.buckets.length ∧ KeysNonneg tHalfFull ∧ (0 : Int) ≤ 5 ∧
    (∃ r, tHalfFull.Search 5 = .ok r) ∧
    (∃ b, tHalfFull.ContainsKey 5 = .ok b) ∧
    (∃ t', tHalfFull.Put 5 ("x") = .ok t' ∧ KeysNonneg t' ∧
      0 < t'.buckets.length) ∧
    (∃ r t', tHalfFull.Remove 5 = .ok (r, t') ∧ KeysNonneg t' ∧
      0 < t'.buckets.length) := by
  have hnn : KeysNonneg tHalfFull :=
    show ∀ b ∈ tHalfFull.buckets, ∀ p ∈ b, 0 ≤ p.1 by decide
  have h := C1_amended tHalfFull 5 (by decide) hnn (by decide)
  exact ⟨by decide, hnn, by decide, h.1, h.2.1, h.2.2.1 ("x"), h.2.2.2⟩

lemma mem_zip_str : ∀ (ks : List Int) (k : Int), k ∈ ks →
    (k, str k) ∈ ks.zip (ks.map str) := by
  intro ks
  induction ks with
  | nil =>
    intro k h
    cases h
  | cons a rest ih =>
    intro k h
    rcases List.mem_cons.mp h with h1 | h2
    · rw [h1]
      exact List.mem_cons_self _ _
    · exact List.mem_cons_of_mem _ (ih k h2)

/-- C4: growth triggers correctly.  Starting from a successfully constructed
table `New(cap, lf)` and putting a list of pairwise distinct keys whose number
reaches `cap * lf` (so at least `ceil(cap * lf)` distinct keys), the final
capacity is `cap * 2^c` for some `c ≥ 1` — in particular at least `2 * cap` —
the size equals the number of keys put, and every inserted key is still
retrievable by `Search` with its unchanged value after all the growths. -/
theorem C4_growth (cap : Int) (lf : ℚ) (t0 t' : HashTable)
    (ps : List (Int × String))
    (hnew : HashTable.New cap lf = .ok t0)
    (hnd : (ps.map Prod.fst).Nodup)
    (hn : (cap : ℚ) * lf ≤ ((ps.length : Nat) : ℚ))
    (hrun : runPuts t0 ps = .ok t') :
    (∃ c : Nat, 1 ≤ c ∧ t'.capacity = cap * 2 ^ c) ∧
    2 * cap ≤ t'.capacity ∧
    t'.num_keys = (ps.length : Int) ∧
    (∀ p ∈ ps, t'.Search p.1 = .ok (some p.2)) := by
  obtain ⟨hcap, hlf0, hlf1, ht0⟩ := new_ok_elim cap lf t0 hnew
  have hwf0 := WF_new cap lf t0 hnew
  have hfresh : ∀ p ∈ ps, t0.findE p.1 = none :=
    fun p _ => findE_new cap lf t0 hnew p.1
  obtain ⟨hwf', hlfeq, hnum', hfind', _, _, _⟩ :=
    runPuts_spec ps t0 t' hwf0 hnd hfresh hrun
  have hlen0 : t0.buckets.length = cap.toNat := by
    rw [ht0]
    exact List.length_replicate _ _
  have hnum0 : t0.num_keys = 0 := by rw [ht0]
  have hlf0' : t0.load_factor = lf := by rw [ht0]
  have hcast : ((cap.toNat : Nat) : ℚ) = (cap : ℚ) := by
    have h1 : ((cap.toNat : Nat) : Int) = cap := Int.toNat_of_nonneg (le_of_lt hcap)
    exact_mod_cast congrArg (fun z : Int => (z : ℚ)) h1
  have hgrow0 : GrowInv cap.toNat lf t0 := by
    refine ⟨le_of_eq hlen0.symm, ⟨0, by rw [hlen0, pow_zero, Nat.mul_one]⟩, ?_, hlf0'⟩
    intro _
    rw [hnum0]
    show ((0 : Int) : ℚ) < (cap.toNat : ℚ) * lf
    rw [hcast]
    push_cast
    exact mul_pos (by exact_mod_cast hcap) hlf0
  obtain ⟨hle, ⟨c, hc⟩, hsmall, _⟩ :=
    runPuts_growInv ps cap.toNat lf t0 t' hwf0 hgrow0 hrun
  have hne : t'.buckets.length ≠ cap.toNat := by
    intro heq
    have hlt := hsmall heq
    rw [hnum', hnum0, hcast] at hlt
    push_cast at hlt
    linarith [hn]
  cases c with
  | zero =>
    rw [pow_zero, Nat.mul_one] at hc
    exact absurd hc hne
  | succ c2 =>
    have hcapEq : t'.capacity = cap * 2 ^ (c2 + 1) := by
      show (t'.buckets.length : Int) = cap * 2 ^ (c2 + 1)
      rw [hc]
      push_cast [Int.toNat_of_nonneg (le_of_lt hcap)]
      ring
    refine ⟨⟨c2 + 1, Nat.succ_le_succ (Nat.zero_le _), hcapEq⟩, ?_, ?_, ?_⟩
    · rw [hcapEq]
      have h2 : (2 : Int) ≤ 2 ^ (c2 + 1) := by
        calc (2 : Int) = 2 ^ 1 := (pow_one 2).symm
          _ ≤ 2 ^ (c2 + 1) := pow_le_pow_right₀ (by omega) (by omega)
      nlinarith [hcap, h2]
    · rw [hnum', hnum0]
      omega
    · intro p hp
      exact findE_some_search t' p.1 p.2 (hfind' p hp)

/-- Witness for C4 on the spec's concrete scenario: `New(4, 1.0)`, then
`Put(0,"0")`, `Put(1,"1")`, `Put(2,"2")` giving size 3 and capacity 4, then
`Put(3,"3")` triggering the growth to capacity 8 with all four keys still
retrievable. -/
theorem C4_witness :
    HashTable.New 4 1 = .ok tCap4 ∧
    runPuts tCap4 [(0, "0"), (1, "1"), (2, "2")] = .ok tCap4Three ∧
    tCap4Three.num_keys = 3 ∧ tCap4Three.capacity = 4 ∧
    tCap4Three.Put 3 ("3") = .ok tCap8Four ∧
    runPuts tCap4 [(0, "0"), (1, "1"), (2, "2"), (3, "3")] = .ok tCap8Four ∧
    (∃ c : Nat, 1 ≤ c ∧ tCap8Four.capacity = 4 * 2 ^ c) ∧
    2 * 4 ≤ tCap8Four.capacity ∧
    tCap8Four.num_keys = 4 ∧
    tCap8Four.Search 0 = .ok (some ("0")) ∧
    tCap8Four.Search 1 = .ok (some ("1")) ∧
    tCap8Four.Search 2 = .ok (some ("2")) ∧
    tCap8Four.Search 3 = .ok (some ("3")) := by
  have hnew : HashTable.New 4 1 = .ok tCap4 := by with_unfolding_all decide
  have hrun : runPuts tCap4 [(0, "0"), (1, "1"), (2, "2"), (3, "3")]
      = .ok tCap8Four := by with_unfolding_all decide
  have h := C4_growth 4 1 tCap4 tCap8Four [(0, "0"), (1, "1"), (2, "2"), (3, "3")]
    hnew (by decide) (by with_unfolding_all decide) hrun
  exact ⟨hnew, by with_unfolding_all decide, by decide, by decide,
    by with_unfolding_all decide, hrun, h.1, h.2.1, h.2.2.1,
    h.2.2.2 (0, "0") (by decide), h.2.2.2 (1, "1") (by decide),
    h.2.2.2 (2, "2") (by decide), h.2.2.2 (3, "3") (by decide)⟩

/-- C5: Put/Search round-trip.  For any list of pairwise distinct keys `ks`
and any successfully constructed table `New(cap, lf)` with
`|ks| < cap * lf` (so no resize is triggered), after putting
`(k, str k)` for each `k` in `ks`, the size equals `|ks|`, the capacity is
still `cap`, and `Search k` returns `str k` for every `k` in `ks`. -/
theorem C5_roundtrip (cap : Int) (lf : ℚ) (t0 t' : HashTable) (ks : List Int)
    (hnew : HashTable.New cap lf = .ok t0)
    (hnd : ks.Nodup)
    (hn : ((ks.length : Nat) : ℚ) < (cap : ℚ) * lf)
    (hrun : runPuts t0 (ks.zip (ks.map str)) = .ok t') :
    t'.num_keys = (ks.length : Int) ∧ t'.capacity = cap ∧
    (∀ k ∈ ks, t'.Search k = .ok (some (str k))) := by
  obtain ⟨hcap, hlf0, hlf1, ht0⟩ := new_ok_elim cap lf t0 hnew
  have hwf0 := WF_new cap lf t0 hnew
  have hzfst : (ks.zip (ks.map str)).map Prod.fst = ks :=
    List.map_fst_zip ks (ks.map str) (le_of_eq (List.length_map ks str).symm)
  have hznd : ((ks.zip (ks.map str)).map Prod.fst).Nodup := by
    rw [hzfst]
    exact hnd
  have hzlen : (ks.zip (ks.map str)).length = ks.length := by
    rw [List.length_zip, List.length_map]
    exact Nat.min_self _
  have hfresh : ∀ p ∈ ks.zip (ks.map str), t0.findE p.1 = none :=
    fun p _ => findE_new cap lf t0 hnew p.1
  have hnum0 : t0.num_keys = 0 := by rw [ht0]
  have hlen0 : t0.buckets.length = cap.toNat := by
    rw [ht0]
    exact List.length_replicate _ _
  have hlf0' : t0.load_factor = lf := by rw [ht0]
  have hcast : ((cap.toNat : Nat) : ℚ) = (cap : ℚ) := by
    have h1 : ((cap.toNat : Nat) : Int) = cap := Int.toNat_of_nonneg (le_of_lt hcap)
    exact_mod_cast congrArg (fun z : Int => (z : ℚ)) h1
  have hnores : t'.buckets.length = t0.buckets.length := by
    refine runPuts_noresize (ks.zip (ks.map str)) t0 t' hwf0 hznd hfresh ?_ hrun
    rw [hnum0, hzlen, hlen0, hlf0', hcast]
    push_cast
    linarith [hn]
  obtain ⟨hwf', _, hnum', hfind', _, _, _⟩ :=
    runPuts_spec _ t0 t' hwf0 hznd hfresh hrun
  refine ⟨?_, ?_, ?_⟩
  · rw [hnum', hnum0, hzlen]
    omega
  · show (t'.buckets.length : Int) = cap
    rw [hnores, hlen0]
    omega
  · intro k hk
    exact findE_some_search t' k (str k) (hfind' (k, str k) (mem_zip_str ks k hk))

/-- Witness for C5: `New(3, 3/4)` with the distinct keys `[0, 1]`
(`2 < 3 * 3/4`), ending with size 2, capacity 3 and both keys retrievable. -/
theorem C5_witness :
    HashTable.New 3 (3/4) = .ok tCap3 ∧
    (([(0 : Int), 1].length : ℚ) < ((3 : Int) : ℚ) * (3/4)) ∧
    runPuts tCap3 ([(0 : Int), 1].zip ([(0 : Int), 1].map str)) = .ok tCap3Two ∧
    tCap3Two.num_keys = 2 ∧ tCap3Two.capacity = 3 ∧
    str 0 = "0" ∧ str 1 = "1" ∧
    tCap3Two.Search 0 = .ok (some (str 0)) ∧
    tCap3Two.Search 1 = .ok (some (str 1)) := by
  have hnew : HashTable.New 3 (3/4) = .ok tCap3 := by with_unfolding_all decide
  have hrun : runPuts tCap3 ([(0 : Int), 1].zip ([(0 : Int), 1].map str))
      = .ok tCap3Two := by with_unfolding_all decide
  have h := C5_roundtrip 3 (3/4) tCap3 tCap3Two [0, 1] hnew (by decide)
    (by with_unfolding_all decide) hrun
  exact ⟨hnew, by with_unfolding_all decide, hrun, h.1, h.2.1,
    by with_unfolding_all decide, by with_unfolding_all decide,
    h.2.2 0 (by decide), h.2.2 1 (by decide)⟩

end itis
